import Mathlib

/-!
# Verification of the factoriomaps tile-pyramid engine

A shallow embedding of `src/factoriomaps_lib/src/render.rs`: the tile
coordinate algebra, the pyramid planner (`ThreadContext::new`), the tile
registry and readiness check (`tile_ready`), the write-parts stage
(`tile_write_parts`, `TilePart`), the build-parent blit offsets, and the
coordinator event loop (`main_loop`), together with theorems about the
specification's claims on them.

Modelling conventions:
* Rust `i32` becomes `Int`; wrap-around is modelled explicitly where a
  cast occurs (`as u32`).  Rust `u32`/`usize` counters become `Nat`.
* `HashMap` becomes an association list with the same observable
  lookup/insert behaviour (`alLookup` / `alUpsert`); insertion order of
  iteration is irrelevant to every property proved here.
* Decoded images (`DynamicImage`) and tag payloads are opaque to the
  scheduler, so they are type parameters `Img` and `TagT`.
* A Rust `panic!`/`unwrap` failure is modelled as `Except.error ()`.
-/

/-- `TILE_SIZE` constant from render.rs. -/
def TILE_SIZE : Nat := 1024

/-- `MAX_ZOOM` constant from render.rs. -/
def MAX_ZOOM : Int := 20

/-- `NUM_PARTS` constant from render.rs. -/
def NUM_PARTS : Nat := 2

/-- `PART_SIZE` constant from render.rs (`TILE_SIZE / NUM_PARTS`). -/
def PART_SIZE : Nat := TILE_SIZE / NUM_PARTS

/-- `TILE_EXTENSION` constant from render.rs. -/
def TILE_EXTENSION : String := "jpg"

/-- The `Tile` struct from render.rs: identity key `(surface, zoom, x, y)`. -/
structure Tile where
  surface : String
  zoom : Int
  x : Int
  y : Int
deriving DecidableEq, Repr

/-- `Tile::zoom_out`: the containing tile one zoom level up.  Rust uses
`i32::div_floor`, i.e. mathematical floor division, modelled by `Int.fdiv`. -/
def Tile.zoom_out (t : Tile) : Tile :=
  { surface := t.surface, zoom := t.zoom - 1, x := t.x.fdiv 2, y := t.y.fdiv 2 }

/-- `Tile::zoom_in`: the child tile with the smallest coordinates. -/
def Tile.zoom_in (t : Tile) : Tile :=
  { surface := t.surface, zoom := t.zoom + 1, x := t.x * 2, y := t.y * 2 }

/-- `Tile::translate`: offset a tile inside its zoom level. -/
def Tile.translate (t : Tile) (x y : Int) : Tile :=
  { surface := t.surface, zoom := t.zoom, x := t.x + x, y := t.y + y }

/-- `Tile::children`: the four child tiles, in the fixed source order
`(0,0),(1,0),(0,1),(1,1)`. -/
def Tile.children (t : Tile) : List Tile :=
  [((0 : Int), (0 : Int)), (1, 0), (0, 1), (1, 1)].map
    (fun p => (t.zoom_in).translate p.1 p.2)

/-- Rust's `x * 2` in `zoom_in` followed by `div_floor 2` in `zoom_out`. -/
theorem fdiv_two_mul (x : Int) : (2 * x).fdiv 2 = x := by
  rw [Int.fdiv_eq_ediv _ (by decide)]
  omega

theorem fdiv_two_mul_add_one (x : Int) : (2 * x + 1).fdiv 2 = x := by
  rw [Int.fdiv_eq_ediv _ (by decide)]
  omega

/-- The floor-division remainder by 2 is 0 or 1. -/
theorem fdiv_two_rem (x : Int) : x - x.fdiv 2 * 2 = 0 ∨ x - x.fdiv 2 * 2 = 1 := by
  rw [Int.fdiv_eq_ediv _ (by decide)]
  omega

/-! ## Association-list map (the observable behaviour of `HashMap`) -/

/-- Association-list lookup; first binding wins (`HashMap::get`). -/
def alLookup {α β : Type} [DecidableEq α] : List (α × β) → α → Option β
  | [], _ => none
  | p :: rest, a => if a = p.1 then some p.2 else alLookup rest a

/-- Association-list insert-or-replace (`HashMap::insert`): replaces the
binding when the key is present, otherwise adds it. -/
def alUpsert {α β : Type} [DecidableEq α] (m : List (α × β)) (a : α) (b : β) :
    List (α × β) :=
  if (alLookup m a).isSome then
    m.map (fun p => if p.1 = a then (a, b) else p)
  else
    (a, b) :: m

/-- The keys of an association list. -/
def alKeys {α β : Type} (m : List (α × β)) : List α := m.map Prod.fst

theorem alLookup_map_replace_ne {α β : Type} [DecidableEq α]
    (m : List (α × β)) (a a' : α) (b : β) (h : a' ≠ a) :
    alLookup (m.map (fun p => if p.1 = a then (a, b) else p)) a' = alLookup m a' := by
  induction m with
  | nil => simp [alLookup]
  | cons p rest ih =>
    by_cases hpa : p.1 = a
    · have h1 : ¬ a' = a := h
      have h2 : ¬ a' = p.1 := fun hc => h (hc.trans hpa)
      simp [alLookup, hpa, h1, h2, ih]
    · by_cases hap : a' = p.1
      · simp [alLookup, hpa, hap]
      · simp [alLookup, hpa, hap, ih]

theorem alLookup_map_replace_self {α β : Type} [DecidableEq α]
    (m : List (α × β)) (a : α) (b : β) (h : (alLookup m a).isSome) :
    alLookup (m.map (fun p => if p.1 = a then (a, b) else p)) a = some b := by
  induction m with
  | nil => simp [alLookup] at h
  | cons p rest ih =>
    by_cases hpa : p.1 = a
    · simp [alLookup, hpa]
    · have hne : ¬ a = p.1 := fun hc => hpa hc.symm
      simp only [List.map_cons, if_neg hpa, alLookup, if_neg hne]
      apply ih
      simpa [alLookup, if_neg hne] using h

theorem alLookup_upsert_self {α β : Type} [DecidableEq α]
    (m : List (α × β)) (a : α) (b : β) : alLookup (alUpsert m a b) a = some b := by
  unfold alUpsert
  split
  · exact alLookup_map_replace_self m a b (by assumption)
  · simp [alLookup]

theorem alLookup_upsert_ne {α β : Type} [DecidableEq α]
    (m : List (α × β)) (a a' : α) (b : β) (h : a' ≠ a) :
    alLookup (alUpsert m a b) a' = alLookup m a' := by
  unfold alUpsert
  split
  · exact alLookup_map_replace_ne m a a' b h
  · simp [alLookup, if_neg h]

theorem alKeys_upsert_of_isSome {α β : Type} [DecidableEq α]
    (m : List (α × β)) (a : α) (b : β) (h : (alLookup m a).isSome) :
    alKeys (alUpsert m a b) = alKeys m := by
  unfold alUpsert
  rw [if_pos h]
  unfold alKeys
  rw [List.map_map]
  apply List.map_congr_left
  intro p _
  by_cases hpa : p.1 = a
  · simp [hpa]
  · simp [hpa]

theorem alLookup_isSome_iff_mem_keys {α β : Type} [DecidableEq α]
    (m : List (α × β)) (a : α) : (alLookup m a).isSome ↔ a ∈ alKeys m := by
  induction m with
  | nil => simp [alLookup, alKeys]
  | cons p rest ih =>
    by_cases hap : a = p.1
    · simp [alLookup, hap, alKeys]
    · simp only [alLookup, if_neg hap, alKeys, List.map_cons, List.mem_cons]
      rw [ih]
      unfold alKeys
      constructor
      · exact Or.inr
      · rintro (hc | hc)
        · exact absurd hc hap
        · exact hc

theorem alLookup_upsert_isSome {α β : Type} [DecidableEq α]
    (m : List (α × β)) (a a' : α) (b : β) :
    (alLookup (alUpsert m a b) a').isSome =
      ((alLookup m a').isSome || decide (a' = a)) := by
  by_cases h : a' = a
  · subst h
    rw [alLookup_upsert_self]
    simp
  · rw [alLookup_upsert_ne _ _ _ _ h]
    simp [h]

theorem alKeys_nodup_upsert {α β : Type} [DecidableEq α]
    (m : List (α × β)) (a : α) (b : β) (h : (alKeys m).Nodup) :
    (alKeys (alUpsert m a b)).Nodup := by
  by_cases hs : (alLookup m a).isSome
  · rw [alKeys_upsert_of_isSome _ _ _ hs]
    exact h
  · unfold alUpsert
    rw [if_neg hs]
    unfold alKeys
    simp only [List.map_cons]
    refine List.Nodup.cons ?_ h
    rw [alLookup_isSome_iff_mem_keys] at hs
    exact fun hc => hs hc

/-! ## Tile parts and the write-parts stage -/

/-- The `TilePart` struct from render.rs: intra-tile part coordinates. -/
structure TilePart where
  x : Nat
  y : Nat
deriving DecidableEq, Repr

/-- `TilePart::get_path_components`: `(zoom, X, Y)` with
`X = self.x as i32 + tile.x * NUM_PARTS as i32` and likewise for `Y`. -/
def TilePart.get_path_components (p : TilePart) (t : Tile) : Int × Int × Int :=
  (t.zoom, (p.x : Int) + t.x * (NUM_PARTS : Int), (p.y : Int) + t.y * (NUM_PARTS : Int))

/-- `TilePart::get_path`: the relative path string
`{surface}/{zoom}/{X}/{Y}.{TILE_EXTENSION}`. -/
def TilePart.get_path (p : TilePart) (t : Tile) : String :=
  t.surface ++ "/" ++ toString (p.get_path_components t).1 ++ "/" ++
    toString (p.get_path_components t).2.1 ++ "/" ++
    toString (p.get_path_components t).2.2 ++ "." ++ TILE_EXTENSION

/-- `get_tile_parts`: parts in source order (`x` outer loop, `y` inner loop). -/
def get_tile_parts : List TilePart :=
  (List.range NUM_PARTS).flatMap (fun x => (List.range NUM_PARTS).map (fun y => ⟨x, y⟩))

/-- A filesystem action performed by `tile_write_parts`.  Paths are modelled
as their `PathBuf` component lists. -/
inductive FsOp where
  | create_dir_all (dir : List String)
  | write_file (path : List String)
deriving DecidableEq, Repr

/-- The component list of one part's output path:
`<output>/tiles/<surface>/<zoom>/<X>/<Y>.<ext>`
(`output.join("tiles").join(part.get_path(tile))`). -/
def part_path_components (output : List String) (p : TilePart) (t : Tile) : List String :=
  output ++ ["tiles", t.surface, toString (p.get_path_components t).1,
    toString (p.get_path_components t).2.1,
    toString (p.get_path_components t).2.2 ++ "." ++ TILE_EXTENSION]

/-- The filesystem trace of `tile_write_parts`: for each part in order,
`fs::create_dir_all(path.parent().unwrap())` and then `fs::write(path, ..)`. -/
def tile_write_parts_fs (output : List String) (t : Tile) : List FsOp :=
  get_tile_parts.flatMap (fun p =>
    [FsOp.create_dir_all (part_path_components output p t).dropLast,
     FsOp.write_file (part_path_components output p t)])

/-! ## The transparency-flattening loop of `tile_write_parts`

`for p in bytes.chunks_mut(4) { if p[3] <= 0x7f { .. } }` on the RGBA byte
buffer handed to the JPEG encoder. -/

/-- The flattening pass over an RGBA byte buffer, 4 bytes per pixel. -/
def flatten_bytes : List Nat → List Nat
  | r :: g :: b :: a :: rest =>
    if a ≤ 0x7f then 27 :: 45 :: 51 :: 0xff :: flatten_bytes rest
    else r :: g :: b :: a :: flatten_bytes rest
  | rest => rest

/-- The `i`-th RGBA pixel of a flat byte buffer. -/
def pixel_at : List Nat → Nat → Option (Nat × Nat × Nat × Nat)
  | r :: g :: b :: a :: _, 0 => some (r, g, b, a)
  | _ :: _ :: _ :: _ :: rest, i + 1 => pixel_at rest i
  | _, _ => none

/-- The Rust cast `as u32` applied to an `i32` value: two's-complementwrap. -/
def as_u32 (n : Int) : Nat := (n % (2 ^ 32 : Int)).toNat

/-! ## Claim C4: coordinate algebra laws -/

theorem fdiv_mul_two (x : Int) : (x * 2).fdiv 2 = x := by
  rw [Int.fdiv_eq_ediv _ (by decide)]
  omega

theorem fdiv_mul_two_add_one (x : Int) : (x * 2 + 1).fdiv 2 = x := by
  rw [Int.fdiv_eq_ediv _ (by decide)]
  omega

/-- C4: for every tile `t` (negative coordinates included),
`parent(first_child(t)) = t`; `children(t)` are the four pairwise-distinct
tiles in the fixed offset order `(0,0),(1,0),(0,1),(1,1)`, each with
`parent = t`; and `parent` floor-divides, so the parent of a tile with
`x = −1`, `y = −1` again has `x = −1`, `y = −1`. -/
theorem claim_C4_coordinate_algebra (t : Tile) :
    (t.zoom_in).zoom_out = t
    ∧ t.children = [(t.zoom_in).translate 0 0, (t.zoom_in).translate 1 0,
        (t.zoom_in).translate 0 1, (t.zoom_in).translate 1 1]
    ∧ t.children.Nodup
    ∧ (∀ c ∈ t.children, c.zoom_out = t)
    ∧ (t.x = -1 → t.y = -1 → (t.zoom_out).x = -1 ∧ (t.zoom_out).y = -1) := by
  have hinj : Function.Injective (fun p : Int × Int => (t.zoom_in).translate p.1 p.2) := by
    intro p q he
    simp only [Tile.zoom_in, Tile.translate] at he
    injection he with h1 h2 h3 h4
    apply Prod.ext <;> omega
  refine ⟨?_, rfl, ?_, ?_, ?_⟩
  · simp [Tile.zoom_in, Tile.zoom_out, fdiv_mul_two]
  · rw [Tile.children]
    exact List.Nodup.map hinj (by decide)
  · intro c hc
    simp only [Tile.children, List.map_cons, List.map_nil, List.mem_cons,
      List.not_mem_nil, or_false] at hc
    rcases hc with hc | hc | hc | hc <;> subst hc <;>
      simp [Tile.zoom_in, Tile.translate, Tile.zoom_out,
        fdiv_mul_two, fdiv_mul_two_add_one]
  · intro hx hy
    rw [Tile.zoom_out]
    simp only [hx, hy]
    constructor <;> decide

/-- C4 witness: the laws evaluated at the concrete tile `("s", 7, -1, -1)`. -/
theorem claim_C4_coordinate_algebra_witness :
    (Tile.zoom_out { surface := "s", zoom := 7, x := -1, y := -1 }).x = -1 ∧
    (Tile.zoom_out { surface := "s", zoom := 7, x := -1, y := -1 }).y = -1 :=
  (claim_C4_coordinate_algebra { surface := "s", zoom := 7, x := -1, y := -1 }).2.2.2.2
    rfl rfl

/-! ## Claim C9: build-parent quadrant offsets are 0/1 and the blit fits -/

/-- C9: for every tile `t`, the quadrant offsets `t.x − 2·parent(t).x` and
`t.y − 2·parent(t).y` lie in `{0, 1}`; for every child produced by
`children`, the build-parent conversion `(child − parent·2) as u32` does not
wrap (it equals the plain value), and the blitted child image of side
`TILE_SIZE` lies entirely inside the `2·TILE_SIZE` canvas. -/
theorem claim_C9_blit_offsets (t : Tile) :
    (t.x - (t.zoom_out).x * 2 = 0 ∨ t.x - (t.zoom_out).x * 2 = 1)
    ∧ (t.y - (t.zoom_out).y * 2 = 0 ∨ t.y - (t.zoom_out).y * 2 = 1)
    ∧ (∀ c ∈ t.children,
        as_u32 (c.x - t.x * 2) = (c.x - t.x * 2).toNat
        ∧ as_u32 (c.y - t.y * 2) = (c.y - t.y * 2).toNat
        ∧ as_u32 (c.x - t.x * 2) * TILE_SIZE + TILE_SIZE ≤ 2 * TILE_SIZE
        ∧ as_u32 (c.y - t.y * 2) * TILE_SIZE + TILE_SIZE ≤ 2 * TILE_SIZE) := by
  refine ⟨?_, ?_, ?_⟩
  · rw [Tile.zoom_out]
    rcases fdiv_two_rem t.x with h | h <;> [left; right] <;> exact h
  · rw [Tile.zoom_out]
    rcases fdiv_two_rem t.y with h | h <;> [left; right] <;> exact h
  · intro c hc
    simp only [Tile.children, List.map_cons, List.map_nil, List.mem_cons,
      List.not_mem_nil, or_false] at hc
    rcases hc with hc | hc | hc | hc <;> subst hc <;>
      simp only [Tile.zoom_in, Tile.translate] <;>
      norm_num [as_u32, TILE_SIZE]

/-- C9 witness: offsets at the concrete tile `("s", 9, -3, 5)`. -/
theorem claim_C9_blit_offsets_witness :
    ((-3 : Int) - (Tile.zoom_out { surface := "s", zoom := 9, x := -3, y := 5 }).x * 2 = 0 ∨
     (-3 : Int) - (Tile.zoom_out { surface := "s", zoom := 9, x := -3, y := 5 }).x * 2 = 1) :=
  (claim_C9_blit_offsets { surface := "s", zoom := 9, x := -3, y := 5 }).1

/-! ## Claim C5: transparency flattening (corrected) -/

/-- C5 counterexample: the claim as stated says every pixel of the buffer
handed to the JPEG encoder has alpha `0xff`; but a pixel with alpha `200`
(≥ 128) is left completely untouched, so its alpha stays `200 ≠ 0xff`. -/
theorem claim_C5_counterexample :
    flatten_bytes [1, 2, 3, 200] = [1, 2, 3, 200]
    ∧ pixel_at (flatten_bytes [1, 2, 3, 200]) 0 = some (1, 2, 3, 200)
    ∧ (200 : Nat) ≠ 0xff := by
  refine ⟨rfl, rfl, by decide⟩

/-- C5 (amended): in the JPEG write-parts stage, every pixel whose alpha is
≤ 127 is overwritten with RGB `(27, 45, 51)` and alpha `0xff`, every pixel
whose alpha is ≥ 128 is left completely untouched, and every pixel of the
buffer handed to the JPEG encoder has alpha ≥ 128 (not necessarily `0xff`). -/
theorem claim_C5_flattening (bytes : List Nat) (i : Nat) (r g b a : Nat)
    (h : pixel_at bytes i = some (r, g, b, a)) :
    (a ≤ 127 → pixel_at (flatten_bytes bytes) i = some (27, 45, 51, 0xff))
    ∧ (128 ≤ a → pixel_at (flatten_bytes bytes) i = some (r, g, b, a))
    ∧ (∀ r' g' b' a', pixel_at (flatten_bytes bytes) i = some (r', g', b', a') →
        128 ≤ a') := by
  have main : ∀ (j : Nat) (bs : List Nat) (r0 g0 b0 a0 : Nat),
      pixel_at bs j = some (r0, g0, b0, a0) →
      (a0 ≤ 127 → pixel_at (flatten_bytes bs) j = some (27, 45, 51, 0xff))
      ∧ (128 ≤ a0 → pixel_at (flatten_bytes bs) j = some (r0, g0, b0, a0)) := by
    intro j
    induction j with
    | zero =>
      intro bs r0 g0 b0 a0 hp
      match bs with
      | [] => simp [pixel_at] at hp
      | [_] => simp [pixel_at] at hp
      | [_, _] => simp [pixel_at] at hp
      | [_, _, _] => simp [pixel_at] at hp
      | r1 :: g1 :: b1 :: a1 :: rest =>
        simp only [pixel_at, Option.some.injEq, Prod.mk.injEq] at hp
        obtain ⟨he1, he2, he3, he4⟩ := hp
        subst he1; subst he2; subst he3; subst he4
        constructor
        · intro ha
          rw [flatten_bytes, if_pos ha]
          rfl
        · intro ha
          rw [flatten_bytes, if_neg (by omega)]
          rfl
    | succ k ih =>
      intro bs r0 g0 b0 a0 hp
      match bs with
      | [] => simp [pixel_at] at hp
      | [_] => simp [pixel_at] at hp
      | [_, _] => simp [pixel_at] at hp
      | [_, _, _] => simp [pixel_at] at hp
      | r1 :: g1 :: b1 :: a1 :: rest =>
        have hp' : pixel_at rest k = some (r0, g0, b0, a0) := hp
        have hrec := ih rest r0 g0 b0 a0 hp'
        constructor
        · intro ha
          rw [flatten_bytes]
          by_cases h1 : a1 ≤ 0x7f
          · rw [if_pos h1]
            exact hrec.1 ha
          · rw [if_neg h1]
            exact hrec.1 ha
        · intro ha
          rw [flatten_bytes]
          by_cases h1 : a1 ≤ 0x7f
          · rw [if_pos h1]
            exact hrec.2 ha
          · rw [if_neg h1]
            exact hrec.2 ha
  have hm := main i bytes r g b a h
  refine ⟨hm.1, hm.2, ?_⟩
  intro r' g' b' a' h'
  by_cases ha : a ≤ 127
  · rw [hm.1 ha] at h'
    injection h' with h1
    injection h1 with hr hrest
    injection hrest with hg hrest2
    injection hrest2 with hb ha'
    omega
  · rw [hm.2 (by omega)] at h'
    injection h' with h1
    injection h1 with hr hrest
    injection hrest with hg hrest2
    injection hrest2 with hb ha'
    omega

/-- C5 witness: flattening evaluated on a concrete two-pixel buffer. -/
theorem claim_C5_flattening_witness :
    pixel_at (flatten_bytes [9, 9, 9, 100, 1, 2, 3, 200]) 0 = some (27, 45, 51, 0xff)
    ∧ pixel_at (flatten_bytes [9, 9, 9, 100, 1, 2, 3, 200]) 1 = some (1, 2, 3, 200) :=
  ⟨(claim_C5_flattening [9, 9, 9, 100, 1, 2, 3, 200] 0 9 9 9 100 rfl).1 (by decide),
   (claim_C5_flattening [9, 9, 9, 100, 1, 2, 3, 200] 1 1 2 3 200 rfl).2.1 (by decide)⟩

/-! ## Claim C7: part output paths and directory creation order -/

/-- In a trace made of `create_dir_all(parent)`/`write_file(path)` pairs,
every write is preceded by the creation of its parent directory. -/
theorem mkdir_before_write (f : TilePart → List String) :
    ∀ (l : List TilePart) (path : List String),
      FsOp.write_file path ∈
        (l.flatMap fun p => [FsOp.create_dir_all (f p).dropLast, FsOp.write_file (f p)]) →
      ∃ i j : Nat, i < j
        ∧ (l.flatMap fun p =>
            [FsOp.create_dir_all (f p).dropLast, FsOp.write_file (f p)])[i]? =
            some (FsOp.create_dir_all path.dropLast)
        ∧ (l.flatMap fun p =>
            [FsOp.create_dir_all (f p).dropLast, FsOp.write_file (f p)])[j]? =
            some (FsOp.write_file path) := by
  intro l
  induction l with
  | nil => intro path h; simp at h
  | cons p rest ih =>
    intro path h
    simp only [List.flatMap_cons, List.cons_append, List.nil_append, List.mem_cons] at h
    rcases h with h | h | h
    · exact absurd h (by simp)
    · injection h with h'
      subst h'
      refine ⟨0, 1, by omega, ?_, ?_⟩ <;> simp [List.flatMap_cons]
    · obtain ⟨i, j, hij, hi, hj⟩ := ih path h
      refine ⟨i + 2, j + 2, by omega, ?_, ?_⟩
      · simpa [List.flatMap_cons] using hi
      · simpa [List.flatMap_cons] using hj

/-- C7: for every part of a written tile, the output path is
`<output>/tiles/<surface>/<zoom>/<X>/<Y>.<ext>` with
`X = part_x + tile.x·NUM_PARTS` and `Y = part_y + tile.y·NUM_PARTS`
(signed, so a negative tile coordinate yields a negative `X`/`Y`), and the
parent directory of each written path is created (`create_dir_all`) at an
earlier position of the filesystem trace than the write itself. -/
theorem claim_C7_part_paths (output : List String) (t : Tile) :
    (∀ p ∈ get_tile_parts,
      part_path_components output p t =
        output ++ ["tiles", t.surface, toString t.zoom,
          toString ((p.x : Int) + t.x * (NUM_PARTS : Int)),
          toString ((p.y : Int) + t.y * (NUM_PARTS : Int)) ++ "." ++ TILE_EXTENSION])
    ∧ (t.x < 0 → ∀ p ∈ get_tile_parts, (p.x : Int) + t.x * (NUM_PARTS : Int) < 0)
    ∧ (t.y < 0 → ∀ p ∈ get_tile_parts, (p.y : Int) + t.y * (NUM_PARTS : Int) < 0)
    ∧ (∀ path, FsOp.write_file path ∈ tile_write_parts_fs output t →
        ∃ i j : Nat, i < j
          ∧ (tile_write_parts_fs output t)[i]? =
              some (FsOp.create_dir_all path.dropLast)
          ∧ (tile_write_parts_fs output t)[j]? = some (FsOp.write_file path)) := by
  have hparts : get_tile_parts = [⟨0, 0⟩, ⟨0, 1⟩, ⟨1, 0⟩, ⟨1, 1⟩] := by decide
  refine ⟨?_, ?_, ?_, ?_⟩
  · intro p _
    rfl
  · intro hx p hp
    rw [hparts] at hp
    simp only [List.mem_cons, List.not_mem_nil, or_false] at hp
    rcases hp with hp | hp | hp | hp <;> subst hp <;>
      simp only [NUM_PARTS] <;> push_cast <;> omega
  · intro hy p hp
    rw [hparts] at hp
    simp only [List.mem_cons, List.not_mem_nil, or_false] at hp
    rcases hp with hp | hp | hp | hp <;> subst hp <;>
      simp only [NUM_PARTS] <;> push_cast <;> omega
  · intro path hmem
    exact mkdir_before_write (fun p => part_path_components output p t)
      get_tile_parts path hmem

/-- C7 witness: paths of the concrete tile `("nauvis", 15, -1, 0)`. -/
theorem claim_C7_part_paths_witness :
    ((-1 : Int) < 0 →
      ∀ p ∈ get_tile_parts, (p.x : Int) + (-1 : Int) * (NUM_PARTS : Int) < 0) ∧
    part_path_components ["out"] ⟨0, 0⟩ { surface := "nauvis", zoom := 15, x := -1, y := 0 } =
      ["out", "tiles", "nauvis", toString (15 : Int),
        toString ((0 : Int) + (-1 : Int) * (NUM_PARTS : Int)),
        toString ((0 : Int) + (0 : Int) * (NUM_PARTS : Int)) ++ "." ++ TILE_EXTENSION] :=
  ⟨(claim_C7_part_paths ["out"] { surface := "nauvis", zoom := 15, x := -1, y := 0 }).2.1,
   (claim_C7_part_paths ["out"] { surface := "nauvis", zoom := 15, x := -1, y := 0 }).1
     ⟨0, 0⟩ (by decide)⟩

/-! ## Manifest data model and the pyramid planner (`ThreadContext::new`) -/

/-- The manifest `Coordinate<i32>`. -/
structure Coordinate where
  x : Int
  y : Int
deriving DecidableEq, Repr

/-- The `SurfaceInfo` manifest entry.  Tag payloads are opaque to the
engine — they are deserialized and carried through to the map index
unchanged — so the per-category tag lists hold an arbitrary type `TagT`. -/
structure SurfaceInfo (TagT : Type) where
  name : String
  tags : List (String × List TagT)
  chunks : List Coordinate
deriving DecidableEq

/-- The `TileState` enum from render.rs; `Img` stands for `DynamicImage`,
which the scheduler never inspects. -/
inductive TileState (Img : Type) where
  | Loaded (img : Img)
  | Waiting
  | Processed
deriving DecidableEq

/-- The registry `HashMap<Tile, TileState>`. -/
abbrev Reg (Img : Type) := List (Tile × TileState Img)

/-- Fuel-driven floor-log2 helper (the fuel only bounds the recursion). -/
def ilog2_fuel : Nat → Nat → Nat
  | _, 0 => 0
  | 0, _ => 0
  | fuel + 1, n => if n < 2 then 0 else ilog2_fuel fuel (n / 2) + 1

/-- Floor of log₂ on positive naturals: the value of Rust `i32::ilog2`. -/
def rust_ilog2 (n : Nat) : Nat := ilog2_fuel n n

/-- Rust `i32::ilog2` panics on non-positive input (`max.ilog2()` in the
planner); `none` is that panic branch. -/
def checked_ilog2 (n : Int) : Option Nat :=
  if n ≤ 0 then none else some (rust_ilog2 n.toNat)

/-- The four running bounds the planner folds over a surface's chunks. -/
structure Bounds where
  min_x : Int
  max_x : Int
  min_y : Int
  max_y : Int
deriving DecidableEq, Repr

/-- The bounds loop of `ThreadContext::new`, started from the first chunk. -/
def chunk_bounds (first : Coordinate) (chunks : List Coordinate) : Bounds :=
  chunks.foldl
    (fun b c => ⟨min b.min_x c.x, max b.max_x c.x, min b.min_y c.y, max b.max_y c.y⟩)
    ⟨first.x, first.x, first.y, first.y⟩

/-- `let max = (1 - min_x).max(1 - min_y).max(max_x).max(max_y)`. -/
def bounds_spread (b : Bounds) : Int :=
  max (max (max (1 - b.min_x) (1 - b.min_y)) b.max_x) b.max_y

/-- The planner's `max` value for a surface, `none` when it has no chunks
(such a surface is skipped). -/
def surface_max (chunks : List Coordinate) : Option Int :=
  match chunks with
  | [] => none
  | first :: _ => some (bounds_spread (chunk_bounds first chunks))

/-- The planner's min-zoom for one surface:
`MAX_ZOOM - max.ilog2() as i32 - 6` (`none` when there are no chunks or
`ilog2` would panic). -/
def surface_min_zoom (chunks : List Coordinate) : Option Int :=
  match surface_max chunks with
  | none => none
  | some m =>
    match checked_ilog2 m with
    | none => none
    | some l => some (MAX_ZOOM - (l : Int) - 6)

/-- The per-chunk insertion loop of `ThreadContext::new`: walk upward from
the chunk tile, inserting `Waiting` entries, until `zoom <= mz` or an
already-planned tile is hit.  The loop is bounded by the zoom budget, so it
is written with that budget as structural fuel. -/
def insert_path_fuel {Img : Type} : Nat → Reg Img → Tile → Int → Reg Img
  | 0, tiles, _, _ => tiles
  | fuel + 1, tiles, t, mz =>
    if t.zoom ≤ mz ∨ (alLookup tiles t).isSome then tiles
    else insert_path_fuel fuel ((t, TileState.Waiting) :: tiles) t.zoom_out mz

/-- The insertion walk; fuel `(t.zoom - mz).toNat` is exactly the number of
levels the loop can descend before `zoom <= mz` stops it. -/
def insert_path {Img : Type} (tiles : Reg Img) (t : Tile) (mz : Int) : Reg Img :=
  insert_path_fuel (t.zoom - mz).toNat tiles t mz

/-- The chunk loop of `ThreadContext::new` for one surface. -/
def plan_surface {Img : Type} (tiles : Reg Img) (name : String)
    (chunks : List Coordinate) (mz : Int) : Reg Img :=
  chunks.foldl (fun acc c => insert_path acc ⟨name, MAX_ZOOM, c.x, c.y⟩ mz) tiles

/-- The surface loop of `ThreadContext::new`: skip surfaces without chunks,
compute and record `min_zoom`, then insert every chunk's tile path. -/
def plan_surfaces {Img TagT : Type} :
    List (SurfaceInfo TagT) → Reg Img → List (String × Int) →
    Except Unit (Reg Img × List (String × Int))
  | [], tiles, mzm => .ok (tiles, mzm)
  | s :: rest, tiles, mzm =>
    match s.chunks with
    | [] => plan_surfaces rest tiles mzm
    | first :: _ =>
      match checked_ilog2 (bounds_spread (chunk_bounds first s.chunks)) with
      | none => .error ()
      | some l =>
        plan_surfaces rest
          (plan_surface tiles s.name s.chunks (MAX_ZOOM - (l : Int) - 6))
          (alUpsert mzm s.name (MAX_ZOOM - (l : Int) - 6))

/-- The `ThreadContext` struct (the indicatif progress bar is UI only and
not modelled). -/
structure ThreadContext (Img TagT : Type) where
  info : List (SurfaceInfo TagT)
  tiles : Reg Img
  min_zoom : List (String × Int)
  loaded_tiles : Nat
  total_tiles : Nat

/-- `ThreadContext::new`: run the planner and record `total_tiles` as the
registry size. -/
def ThreadContext.new {Img TagT : Type} (info : List (SurfaceInfo TagT)) :
    Except Unit (ThreadContext Img TagT) :=
  (plan_surfaces info [] []).map (fun r =>
    { info := info, tiles := r.1, min_zoom := r.2,
      loaded_tiles := 0, total_tiles := r.1.length })

/-! ## The specification-level planned tile set -/

/-- Iterated `zoom_out`. -/
def iter_out (t : Tile) : Nat → Tile
  | 0 => t
  | k + 1 => (iter_out t k).zoom_out

/-- The path `(MAX_ZOOM, c.x, c.y) → parent → … → (mz+1, _, _)`. -/
def chunk_path (name : String) (mz : Int) (c : Coordinate) : List Tile :=
  (List.range (MAX_ZOOM - mz).toNat).map (iter_out ⟨name, MAX_ZOOM, c.x, c.y⟩)

/-- All tiles the specification says the planner must produce. -/
def planned_tiles {TagT : Type} (info : List (SurfaceInfo TagT)) : List Tile :=
  info.flatMap (fun s =>
    match surface_min_zoom s.chunks with
    | none => []
    | some mz => s.chunks.flatMap (chunk_path s.name mz))

/-! ## Planner correctness machinery -/

theorem iter_out_surface (t : Tile) (k : Nat) : (iter_out t k).surface = t.surface := by
  induction k with
  | zero => rfl
  | succ k ih => simp only [iter_out, Tile.zoom_out, ih]

theorem iter_out_zoom (t : Tile) (k : Nat) : (iter_out t k).zoom = t.zoom - k := by
  induction k with
  | zero => simp [iter_out]
  | succ k ih =>
    simp only [iter_out, Tile.zoom_out, ih]
    push_cast
    ring

theorem iter_out_succ_inner (t : Tile) (k : Nat) :
    iter_out t (k + 1) = iter_out t.zoom_out k := by
  induction k with
  | zero => rfl
  | succ k ih =>
    show (iter_out t (k + 1)).zoom_out = (iter_out t.zoom_out k).zoom_out
    rw [ih]

/-- The planner walk's invariant for one surface, with the walk's pending
tile `exc` allowed as a not-yet-inserted parent: every planned tile of the
surface has zoom in `(mz, MAX_ZOOM]`, and its parent is planned unless the
tile sits at the bottom planned level. -/
def cl_except {Img : Type} (name : String) (mz : Int) (tiles : Reg Img)
    (exc : Tile) : Prop :=
  ∀ u ∈ alKeys tiles, u.surface = name →
    mz < u.zoom ∧ u.zoom ≤ MAX_ZOOM ∧
    (mz + 1 < u.zoom → (u.zoom_out ∈ alKeys tiles ∨ u.zoom_out = exc))

/-- The closed form of the invariant, holding between chunk walks. -/
def cl_closed {Img : Type} (name : String) (mz : Int) (tiles : Reg Img) : Prop :=
  ∀ u ∈ alKeys tiles, u.surface = name →
    mz < u.zoom ∧ u.zoom ≤ MAX_ZOOM ∧
    (mz + 1 < u.zoom → u.zoom_out ∈ alKeys tiles)

theorem cl_closed_to_except {Img : Type} {name : String} {mz : Int}
    {tiles : Reg Img} (exc : Tile) (h : cl_closed name mz tiles) :
    cl_except name mz tiles exc := by
  intro u hu hs
  obtain ⟨h1, h2, h3⟩ := h u hu hs
  exact ⟨h1, h2, fun hz => Or.inl (h3 hz)⟩

/-- If the walk's pending tile is itself already planned, the whole upward
chain within the zoom budget is already planned. -/
theorem chain_mem_of_mem {Img : Type} {name : String} {mz : Int}
    {tiles : Reg Img} {t : Tile}
    (hsurf : t.surface = name) (ht : t ∈ alKeys tiles)
    (hCL : cl_except name mz tiles t) :
    ∀ k : Nat, (k : Int) < t.zoom - mz → iter_out t k ∈ alKeys tiles := by
  intro k
  induction k with
  | zero => exact fun _ => ht
  | succ k ih =>
    intro hk
    have hk' : (k : Int) < t.zoom - mz := by push_cast at hk ⊢; omega
    have hmem : iter_out t k ∈ alKeys tiles := ih hk'
    have hs : (iter_out t k).surface = name := (iter_out_surface t k).trans hsurf
    have hcl := hCL _ hmem hs
    have hz : (iter_out t k).zoom = t.zoom - k := iter_out_zoom t k
    have hzz : mz + 1 < (iter_out t k).zoom := by push_cast at hk; omega
    have hstep : iter_out t (k + 1) = (iter_out t k).zoom_out := rfl
    rcases hcl.2.2 hzz with h | h
    · rw [hstep]; exact h
    · rw [hstep, h]; exact ht

theorem insert_path_fuel_spec {Img : Type} (name : String) (mz : Int) :
    ∀ (n : Nat) (tiles : Reg Img) (t : Tile),
      (t.zoom - mz).toNat = n →
      t.surface = name →
      t.zoom ≤ MAX_ZOOM →
      cl_except name mz tiles t →
      (∀ p ∈ tiles, p.2 = TileState.Waiting) →
      (alKeys tiles).Nodup →
      (∀ u, u ∈ alKeys (insert_path_fuel n tiles t mz) ↔
        (u ∈ alKeys tiles ∨ ∃ k : Nat, k < n ∧ u = iter_out t k))
      ∧ cl_closed name mz (insert_path_fuel n tiles t mz)
      ∧ (∀ p ∈ insert_path_fuel n tiles t mz, p.2 = TileState.Waiting)
      ∧ (alKeys (insert_path_fuel n tiles t mz)).Nodup := by
  intro n
  induction n with
  | zero =>
    intro tiles t hn hsurf hzle hCL hW hnd
    have hstop : t.zoom ≤ mz := by omega
    refine ⟨?_, ?_, hW, hnd⟩
    · intro u
      simp only [insert_path_fuel]
      constructor
      · exact Or.inl
      · rintro (h | ⟨k, hk, _⟩)
        · exact h
        · omega
    · intro u hu hs
      obtain ⟨h1, h2, h3⟩ := hCL u hu hs
      refine ⟨h1, h2, fun hz => ?_⟩
      rcases h3 hz with h | h
      · exact h
      · exfalso
        have : (u.zoom_out).zoom = t.zoom := by rw [h]
        simp only [Tile.zoom_out] at this
        omega
  | succ n ih =>
    intro tiles t hn hsurf hzle hCL hW hnd
    have hzgt : mz < t.zoom := by omega
    by_cases hguard : t.zoom ≤ mz ∨ (alLookup tiles t).isSome
    · have hmem : t ∈ alKeys tiles := by
        rcases hguard with h | h
        · omega
        · exact (alLookup_isSome_iff_mem_keys tiles t).mp h
      have hres : insert_path_fuel (n + 1) tiles t mz = tiles := by
        rw [insert_path_fuel, if_pos hguard]
      rw [hres]
      refine ⟨?_, ?_, hW, hnd⟩
      · intro u
        constructor
        · exact Or.inl
        · rintro (h | ⟨k, hk, rfl⟩)
          · exact h
          · exact chain_mem_of_mem hsurf hmem hCL k (by omega)
      · intro u hu hs
        obtain ⟨h1, h2, h3⟩ := hCL u hu hs
        refine ⟨h1, h2, fun hz => ?_⟩
        rcases h3 hz with h | h
        · exact h
        · rw [h]; exact hmem
    · have hnotin : t ∉ alKeys tiles := by
        rw [← alLookup_isSome_iff_mem_keys]
        intro hc
        exact hguard (Or.inr hc)
      have hres : insert_path_fuel (n + 1) tiles t mz =
          insert_path_fuel n ((t, TileState.Waiting) :: tiles) t.zoom_out mz := by
        rw [insert_path_fuel, if_neg hguard]
      have hz' : (t.zoom_out.zoom - mz).toNat = n := by
        simp only [Tile.zoom_out]
        omega
      have hs' : t.zoom_out.surface = name := by
        simp only [Tile.zoom_out]
        exact hsurf
      have hle' : t.zoom_out.zoom ≤ MAX_ZOOM := by
        simp only [Tile.zoom_out]
        omega
      have hCL' : cl_except name mz ((t, TileState.Waiting) :: tiles) t.zoom_out := by
        intro u hu hs
        simp only [alKeys, List.map_cons, List.mem_cons] at hu
        rcases hu with rfl | hu
        · exact ⟨hzgt, hzle, fun _ => Or.inr rfl⟩
        · obtain ⟨h1, h2, h3⟩ := hCL u hu hs
          refine ⟨h1, h2, fun hz => ?_⟩
          rcases h3 hz with h | h
          · exact Or.inl (by simp only [alKeys, List.map_cons, List.mem_cons]; exact Or.inr h)
          · exact Or.inl (by simp only [alKeys, List.map_cons, List.mem_cons]; exact Or.inl h)
      have hW' : ∀ p ∈ (t, (TileState.Waiting : TileState Img)) :: tiles, p.2 = TileState.Waiting := by
        intro p hp
        rcases List.mem_cons.mp hp with rfl | hp
        · rfl
        · exact hW p hp
      have hnd' : (alKeys ((t, (TileState.Waiting : TileState Img)) :: tiles)).Nodup := by
        simp only [alKeys, List.map_cons]
        exact List.Nodup.cons hnotin hnd
      obtain ⟨hmemb, hclosed, hwait, hnodup⟩ :=
        ih ((t, TileState.Waiting) :: tiles) t.zoom_out hz' hs' hle' hCL' hW' hnd'
      rw [hres]
      refine ⟨?_, hclosed, hwait, hnodup⟩
      intro u
      rw [hmemb u]
      simp only [alKeys, List.map_cons, List.mem_cons]
      constructor
      · rintro ((rfl | hu) | ⟨k, hk, rfl⟩)
        · exact Or.inr ⟨0, by omega, rfl⟩
        · exact Or.inl hu
        · exact Or.inr ⟨k + 1, by omega, (iter_out_succ_inner t k).symm⟩
      · rintro (hu | ⟨k, hk, rfl⟩)
        · exact Or.inl (Or.inr hu)
        · match k with
          | 0 => exact Or.inl (Or.inl rfl)
          | k + 1 =>
            refine Or.inr ⟨k, by omega, ?_⟩
            rw [iter_out_succ_inner]

theorem mem_chunk_path_iff (name : String) (mz : Int) (c : Coordinate) (u : Tile) :
    u ∈ chunk_path name mz c ↔
      ∃ k : Nat, k < (MAX_ZOOM - mz).toNat ∧
        u = iter_out ⟨name, MAX_ZOOM, c.x, c.y⟩ k := by
  simp only [chunk_path, List.mem_map, List.mem_range]
  constructor
  · rintro ⟨k, hk, rfl⟩
    exact ⟨k, hk, rfl⟩
  · rintro ⟨k, hk, rfl⟩
    exact ⟨k, hk, rfl⟩

theorem plan_surface_spec {Img : Type} (name : String) (mz : Int) :
    ∀ (chunks : List Coordinate) (tiles : Reg Img),
      cl_closed name mz tiles →
      (∀ p ∈ tiles, p.2 = TileState.Waiting) →
      (alKeys tiles).Nodup →
      (∀ u, u ∈ alKeys (plan_surface tiles name chunks mz) ↔
        (u ∈ alKeys tiles ∨ u ∈ chunks.flatMap (chunk_path name mz)))
      ∧ cl_closed name mz (plan_surface tiles name chunks mz)
      ∧ (∀ p ∈ plan_surface tiles name chunks mz, p.2 = TileState.Waiting)
      ∧ (alKeys (plan_surface tiles name chunks mz)).Nodup := by
  intro chunks
  induction chunks with
  | nil =>
    intro tiles hCL hW hnd
    refine ⟨?_, hCL, hW, hnd⟩
    intro u
    simp [plan_surface]
  | cons c cs ih =>
    intro tiles hCL hW hnd
    have hfold : plan_surface tiles name (c :: cs) mz =
        plan_surface (insert_path tiles ⟨name, MAX_ZOOM, c.x, c.y⟩ mz) name cs mz := by
      simp [plan_surface]
    have hbase : (Tile.mk name MAX_ZOOM c.x c.y).zoom = MAX_ZOOM := rfl
    obtain ⟨hmemb, hclosed, hwait, hnodup⟩ :=
      insert_path_fuel_spec name mz (MAX_ZOOM - mz).toNat tiles
        ⟨name, MAX_ZOOM, c.x, c.y⟩ rfl rfl (le_refl _)
        (cl_closed_to_except _ hCL) hW hnd
    obtain ⟨hmemb2, hclosed2, hwait2, hnodup2⟩ :=
      ih (insert_path tiles ⟨name, MAX_ZOOM, c.x, c.y⟩ mz) hclosed hwait hnodup
    rw [hfold]
    refine ⟨?_, hclosed2, hwait2, hnodup2⟩
    intro u
    rw [hmemb2 u]
    have : u ∈ alKeys (insert_path tiles ⟨name, MAX_ZOOM, c.x, c.y⟩ mz) ↔
        (u ∈ alKeys tiles ∨ u ∈ chunk_path name mz c) := by
      rw [insert_path]
      rw [hmemb u, mem_chunk_path_iff]
    rw [this]
    simp only [List.flatMap_cons, List.mem_append]
    tauto

/-! ## Bounds and `ilog2` characterization -/

theorem chunk_bounds_spec (first : Coordinate) (chunks : List Coordinate) :
    (∀ c ∈ chunks,
      (chunk_bounds first chunks).min_x ≤ c.x ∧ c.x ≤ (chunk_bounds first chunks).max_x ∧
      (chunk_bounds first chunks).min_y ≤ c.y ∧ c.y ≤ (chunk_bounds first chunks).max_y)
    ∧ ((chunk_bounds first chunks).min_x = first.x ∨
        ∃ c ∈ chunks, (chunk_bounds first chunks).min_x = c.x)
    ∧ ((chunk_bounds first chunks).max_x = first.x ∨
        ∃ c ∈ chunks, (chunk_bounds first chunks).max_x = c.x)
    ∧ ((chunk_bounds first chunks).min_y = first.y ∨
        ∃ c ∈ chunks, (chunk_bounds first chunks).min_y = c.y)
    ∧ ((chunk_bounds first chunks).max_y = first.y ∨
        ∃ c ∈ chunks, (chunk_bounds first chunks).max_y = c.y) := by
  suffices h : ∀ (l : List Coordinate) (b : Bounds),
      (let r := l.foldl
        (fun b c => ⟨min b.min_x c.x, max b.max_x c.x, min b.min_y c.y, max b.max_y c.y⟩) b
      (r.min_x ≤ b.min_x ∧ b.max_x ≤ r.max_x ∧ r.min_y ≤ b.min_y ∧ b.max_y ≤ r.max_y)
      ∧ (∀ c ∈ l, r.min_x ≤ c.x ∧ c.x ≤ r.max_x ∧ r.min_y ≤ c.y ∧ c.y ≤ r.max_y)
      ∧ (r.min_x = b.min_x ∨ ∃ c ∈ l, r.min_x = c.x)
      ∧ (r.max_x = b.max_x ∨ ∃ c ∈ l, r.max_x = c.x)
      ∧ (r.min_y = b.min_y ∨ ∃ c ∈ l, r.min_y = c.y)
      ∧ (r.max_y = b.max_y ∨ ∃ c ∈ l, r.max_y = c.y)) by
    obtain ⟨hb, hall, h1, h2, h3, h4⟩ := h chunks ⟨first.x, first.x, first.y, first.y⟩
    exact ⟨hall, h1, h2, h3, h4⟩
  intro l
  induction l with
  | nil =>
    intro b
    refine ⟨⟨le_refl _, le_refl _, le_refl _, le_refl _⟩, ?_, ?_, ?_, ?_, ?_⟩ <;> simp
  | cons c cs ih =>
    intro b
    obtain ⟨⟨hb1, hb2, hb3, hb4⟩, hall, h1, h2, h3, h4⟩ :=
      ih ⟨min b.min_x c.x, max b.max_x c.x, min b.min_y c.y, max b.max_y c.y⟩
    dsimp only at hb1 hb2 hb3 hb4
    simp only [List.foldl_cons]
    refine ⟨⟨?_, ?_, ?_, ?_⟩, ?_, ?_, ?_, ?_, ?_⟩
    · exact le_trans hb1 (min_le_left _ _)
    · exact le_trans (le_max_left _ _) hb2
    · exact le_trans hb3 (min_le_left _ _)
    · exact le_trans (le_max_left _ _) hb4
    · intro c' hc'
      rcases List.mem_cons.mp hc' with rfl | hc'
      · exact ⟨le_trans hb1 (min_le_right _ _), le_trans (le_max_right _ _) hb2,
          le_trans hb3 (min_le_right _ _), le_trans (le_max_right _ _) hb4⟩
      · exact hall c' hc'
    · rcases h1 with h | ⟨c', hc', h⟩
      · dsimp only at h
        rw [h]
        rcases le_total b.min_x c.x with hle | hle
        · exact Or.inl (min_eq_left hle)
        · exact Or.inr ⟨c, List.mem_cons_self c cs, min_eq_right hle⟩
      · exact Or.inr ⟨c', List.mem_cons_of_mem c hc', h⟩
    · rcases h2 with h | ⟨c', hc', h⟩
      · dsimp only at h
        rw [h]
        rcases le_total b.max_x c.x with hle | hle
        · exact Or.inr ⟨c, List.mem_cons_self c cs, max_eq_right hle⟩
        · exact Or.inl (max_eq_left hle)
      · exact Or.inr ⟨c', List.mem_cons_of_mem c hc', h⟩
    · rcases h3 with h | ⟨c', hc', h⟩
      · dsimp only at h
        rw [h]
        rcases le_total b.min_y c.y with hle | hle
        · exact Or.inl (min_eq_left hle)
        · exact Or.inr ⟨c, List.mem_cons_self c cs, min_eq_right hle⟩
      · exact Or.inr ⟨c', List.mem_cons_of_mem c hc', h⟩
    · rcases h4 with h | ⟨c', hc', h⟩
      · dsimp only at h
        rw [h]
        rcases le_total b.max_y c.y with hle | hle
        · exact Or.inr ⟨c, List.mem_cons_self c cs, max_eq_right hle⟩
        · exact Or.inl (max_eq_left hle)
      · exact Or.inr ⟨c', List.mem_cons_of_mem c hc', h⟩

/-- The chunk-bounds fold keeps `min_x ≤ max_x` and `min_y ≤ max_y`. -/
theorem chunk_bounds_min_le_max (first : Coordinate) (chunks : List Coordinate) :
    (chunk_bounds first chunks).min_x ≤ (chunk_bounds first chunks).max_x ∧
    (chunk_bounds first chunks).min_y ≤ (chunk_bounds first chunks).max_y := by
  suffices h : ∀ (l : List Coordinate) (b : Bounds), b.min_x ≤ b.max_x → b.min_y ≤ b.max_y →
      (let r := l.foldl
        (fun b c => ⟨min b.min_x c.x, max b.max_x c.x, min b.min_y c.y, max b.max_y c.y⟩) b
      r.min_x ≤ r.max_x ∧ r.min_y ≤ r.max_y) by
    exact h chunks ⟨first.x, first.x, first.y, first.y⟩ (le_refl _) (le_refl _)
  intro l
  induction l with
  | nil => intro b h1 h2; exact ⟨h1, h2⟩
  | cons c cs ih =>
    intro b h1 h2
    simp only [List.foldl_cons]
    exact ih _ (le_trans (min_le_left _ _) (le_trans h1 (le_max_left _ _)))
      (le_trans (min_le_left _ _) (le_trans h2 (le_max_left _ _)))

/-- The planner's `max` value is at least 1 for any surface with a chunk. -/
theorem bounds_spread_pos (b : Bounds) (h : b.min_x ≤ b.max_x) :
    1 ≤ bounds_spread b := by
  unfold bounds_spread
  omega

theorem ilog2_fuel_spec : ∀ (fuel n : Nat), 1 ≤ n → n ≤ fuel →
    2 ^ ilog2_fuel fuel n ≤ n ∧ n < 2 ^ (ilog2_fuel fuel n + 1) := by
  intro fuel
  induction fuel with
  | zero => intro n h1 h2; omega
  | succ fuel ih =>
    intro n h1 h2
    obtain ⟨m, rfl⟩ : ∃ m, n = m + 1 := ⟨n - 1, by omega⟩
    by_cases hn : m + 1 < 2
    · have hm : m = 0 := by omega
      subst hm
      simp [ilog2_fuel]
    · have hstep : ilog2_fuel (fuel + 1) (m + 1) = ilog2_fuel fuel ((m + 1) / 2) + 1 := by
        simp [ilog2_fuel, hn]
      have hh1 : 1 ≤ (m + 1) / 2 := by omega
      have hh2 : (m + 1) / 2 ≤ fuel := by omega
      obtain ⟨hl, hr⟩ := ih ((m + 1) / 2) hh1 hh2
      rw [hstep]
      have hp1 : (2 : Nat) ^ (ilog2_fuel fuel ((m + 1) / 2) + 1) =
          2 * 2 ^ ilog2_fuel fuel ((m + 1) / 2) := by ring
      have hp2 : (2 : Nat) ^ (ilog2_fuel fuel ((m + 1) / 2) + 1 + 1) =
          2 * 2 ^ (ilog2_fuel fuel ((m + 1) / 2) + 1) := by ring
      omega

/-- `rust_ilog2` is the floor of log₂ on positive naturals. -/
theorem rust_ilog2_spec (n : Nat) (h : 1 ≤ n) :
    2 ^ rust_ilog2 n ≤ n ∧ n < 2 ^ (rust_ilog2 n + 1) :=
  ilog2_fuel_spec n n h (le_refl _)

/-- `checked_ilog2` succeeds exactly on positive values. -/
theorem checked_ilog2_pos (n : Int) (h : 1 ≤ n) :
    checked_ilog2 n = some (rust_ilog2 n.toNat) := by
  unfold checked_ilog2
  rw [if_neg (by omega)]

theorem chunk_path_surface (name : String) (mz : Int) (c : Coordinate) (u : Tile)
    (h : u ∈ chunk_path name mz c) : u.surface = name := by
  rw [mem_chunk_path_iff] at h
  obtain ⟨k, _, rfl⟩ := h
  exact iter_out_surface _ _

theorem plan_surfaces_spec {Img TagT : Type} :
    ∀ (ss : List (SurfaceInfo TagT)) (tiles : Reg Img) (mzm : List (String × Int)),
      (ss.map SurfaceInfo.name).Nodup →
      (∀ s ∈ ss, ∀ u ∈ alKeys tiles, u.surface ≠ s.name) →
      (∀ p ∈ tiles, p.2 = TileState.Waiting) →
      (alKeys tiles).Nodup →
      ∃ tilesF mzmF,
        plan_surfaces ss tiles mzm = .ok (tilesF, mzmF)
        ∧ (∀ u, u ∈ alKeys tilesF ↔ (u ∈ alKeys tiles ∨ u ∈ planned_tiles ss))
        ∧ (∀ p ∈ tilesF, p.2 = TileState.Waiting)
        ∧ (alKeys tilesF).Nodup
        ∧ (∀ s ∈ ss, s.chunks ≠ [] →
            alLookup mzmF s.name = surface_min_zoom s.chunks)
        ∧ (∀ s ∈ ss, s.chunks = [] →
            alLookup mzmF s.name = alLookup mzm s.name)
        ∧ (∀ name, (∀ s ∈ ss, s.name ≠ name) →
            alLookup mzmF name = alLookup mzm name) := by
  intro ss
  induction ss with
  | nil =>
    intro tiles mzm _ _ hW hnd
    refine ⟨tiles, mzm, rfl, ?_, hW, hnd, ?_, ?_, ?_⟩
    · intro u
      simp [planned_tiles]
    · intro s hs
      simp at hs
    · intro s hs
      simp at hs
    · intro name _
      rfl
  | cons s rest ih =>
    intro tiles mzm hnames hfresh hW hnd
    obtain ⟨hsnotin, hrestnd⟩ := by
      rw [List.map_cons, List.nodup_cons] at hnames
      exact hnames
    obtain ⟨nm, tg, ch⟩ := s
    match hc : ch with
    | [] =>
      have hstep : plan_surfaces (⟨nm, tg, ([] : List Coordinate)⟩ :: rest) tiles mzm =
          plan_surfaces rest tiles mzm := rfl
      obtain ⟨tilesF, mzmF, hok, hmemb, hWF, hndF, h4, h6, h7⟩ :=
        ih tiles mzm hrestnd (fun s' hs' => hfresh s' (List.mem_cons_of_mem _ hs')) hW hnd
      refine ⟨tilesF, mzmF, hstep.trans hok, ?_, hWF, hndF, ?_, ?_, ?_⟩
      · intro u
        rw [hmemb u]
        simp [planned_tiles, surface_min_zoom, surface_max]
      · intro s' hs' hch
        rcases List.mem_cons.mp hs' with rfl | hs'
        · exact absurd rfl hch
        · exact h4 s' hs' hch
      · intro s' hs' hch
        rcases List.mem_cons.mp hs' with rfl | hs'
        · exact h7 nm (by
            intro s'' hs'' hcontra
            have hmm := List.mem_map_of_mem SurfaceInfo.name hs''
            rw [hcontra] at hmm
            exact hsnotin hmm)
        · exact h6 s' hs' hch
      · intro name hname
        exact h7 name (fun s'' hs'' => hname s'' (List.mem_cons_of_mem _ hs''))
    | first :: cs =>
      have hspread : 1 ≤ bounds_spread (chunk_bounds first (first :: cs)) :=
        bounds_spread_pos _ (chunk_bounds_min_le_max first (first :: cs)).1
      have hilog : checked_ilog2 (bounds_spread (chunk_bounds first (first :: cs))) =
          some (rust_ilog2 (bounds_spread (chunk_bounds first (first :: cs))).toNat) :=
        checked_ilog2_pos _ hspread
      set l : Nat := rust_ilog2 (bounds_spread (chunk_bounds first (first :: cs))).toNat with hl
      set mz : Int := MAX_ZOOM - (l : Int) - 6 with hmz
      have hsmz : surface_min_zoom (first :: cs) = some mz := by
        show (match checked_ilog2 (bounds_spread (chunk_bounds first (first :: cs))) with
          | none => none
          | some l => some (MAX_ZOOM - (l : Int) - 6)) = some mz
        rw [hilog]
      have hstep : plan_surfaces (⟨nm, tg, first :: cs⟩ :: rest) tiles mzm =
          plan_surfaces rest (plan_surface tiles nm (first :: cs) mz)
            (alUpsert mzm nm mz) := by
        show (match checked_ilog2 (bounds_spread (chunk_bounds first (first :: cs))) with
          | none => Except.error ()
          | some l =>
            plan_surfaces rest
              (plan_surface tiles nm (first :: cs) (MAX_ZOOM - (l : Int) - 6))
              (alUpsert mzm nm (MAX_ZOOM - (l : Int) - 6))) = _
        rw [hilog]
      have hCL0 : cl_closed nm mz tiles := by
        intro u hu hs
        exact absurd hs (hfresh _ (List.mem_cons_self _ _) u hu)
      obtain ⟨hmemb1, hclosed1, hwait1, hnodup1⟩ :=
        plan_surface_spec nm mz (first :: cs) tiles hCL0 hW hnd
      have hfresh' : ∀ s' ∈ rest, ∀ u ∈ alKeys (plan_surface tiles nm (first :: cs) mz),
          u.surface ≠ s'.name := by
        intro s' hs' u hu
        rcases (hmemb1 u).mp hu with hu' | hu'
        · exact hfresh s' (List.mem_cons_of_mem _ hs') u hu'
        · rw [List.mem_flatMap] at hu'
          obtain ⟨c, _, hc⟩ := hu'
          rw [chunk_path_surface nm mz c u hc]
          intro hcontra
          have hmm := List.mem_map_of_mem SurfaceInfo.name hs'
          rw [← hcontra] at hmm
          exact hsnotin hmm
      obtain ⟨tilesF, mzmF, hok, hmemb, hWF, hndF, h4, h6, h7⟩ :=
        ih (plan_surface tiles nm (first :: cs) mz) (alUpsert mzm nm mz)
          hrestnd hfresh' hwait1 hnodup1
      have hrest_ne_nm : ∀ s'' ∈ rest, s''.name ≠ nm := by
        intro s'' hs'' hcontra
        have hmm := List.mem_map_of_mem SurfaceInfo.name hs''
        rw [hcontra] at hmm
        exact hsnotin hmm
      refine ⟨tilesF, mzmF, hstep.trans hok, ?_, hWF, hndF, ?_, ?_, ?_⟩
      · intro u
        rw [hmemb u]
        have hplanned : planned_tiles (⟨nm, tg, first :: cs⟩ :: rest) =
            (first :: cs).flatMap (chunk_path nm mz) ++ planned_tiles rest := by
          show (match surface_min_zoom (first :: cs) with
            | none => []
            | some mz' => (first :: cs).flatMap (chunk_path nm mz')) ++
              planned_tiles rest = _
          rw [hsmz]
        rw [hplanned]
        rw [hmemb1 u]
        simp only [List.mem_append]
        tauto
      · intro s' hs' hch
        rcases List.mem_cons.mp hs' with rfl | hs'
        · have := h7 nm hrest_ne_nm
          rw [this, alLookup_upsert_self]
          exact hsmz.symm
        · exact h4 s' hs' hch
      · intro s' hs' hch
        rcases List.mem_cons.mp hs' with rfl | hs'
        · simp at hch
        · rw [h6 s' hs' hch]
          exact alLookup_upsert_ne _ _ _ _ (hrest_ne_nm s' hs')
      · intro name hname
        rw [h7 name (fun s'' hs'' => hname s'' (List.mem_cons_of_mem _ hs''))]
        exact alLookup_upsert_ne _ _ _ _
          (fun hcontra => hname _ (List.mem_cons_self _ _) hcontra.symm)

theorem plan_surfaces_ok {Img TagT : Type} :
    ∀ (ss : List (SurfaceInfo TagT)) (tiles : Reg Img) (mzm : List (String × Int)),
      ∃ r, plan_surfaces ss tiles mzm = .ok r := by
  intro ss
  induction ss with
  | nil => intro tiles mzm; exact ⟨_, rfl⟩
  | cons s rest ih =>
    intro tiles mzm
    obtain ⟨nm, tg, ch⟩ := s
    match ch with
    | [] => exact ih tiles mzm
    | first :: cs =>
      have hspread : 1 ≤ bounds_spread (chunk_bounds first (first :: cs)) :=
        bounds_spread_pos _ (chunk_bounds_min_le_max first (first :: cs)).1
      have hilog := checked_ilog2_pos _ hspread
      obtain ⟨r, hr⟩ := ih
        (plan_surface tiles nm (first :: cs)
          (MAX_ZOOM -
            (rust_ilog2 (bounds_spread (chunk_bounds first (first :: cs))).toNat : Int) - 6))
        (alUpsert mzm nm
          (MAX_ZOOM -
            (rust_ilog2 (bounds_spread (chunk_bounds first (first :: cs))).toNat : Int) - 6))
      refine ⟨r, ?_⟩
      show (match checked_ilog2 (bounds_spread (chunk_bounds first (first :: cs))) with
        | none => Except.error ()
        | some l =>
          plan_surfaces rest
            (plan_surface tiles nm (first :: cs) (MAX_ZOOM - (l : Int) - 6))
            (alUpsert mzm nm (MAX_ZOOM - (l : Int) - 6))) = Except.ok r
      rw [hilog]
      exact hr

theorem mem_planned_tiles {TagT : Type} (info : List (SurfaceInfo TagT)) (u : Tile) :
    u ∈ planned_tiles info ↔
      ∃ s ∈ info, ∃ mz, surface_min_zoom s.chunks = some mz ∧
        ∃ c ∈ s.chunks, ∃ k : Nat, k < (MAX_ZOOM - mz).toNat ∧
          u = iter_out ⟨s.name, MAX_ZOOM, c.x, c.y⟩ k := by
  unfold planned_tiles
  rw [List.mem_flatMap]
  constructor
  · rintro ⟨s, hs, hu⟩
    cases hsmz : surface_min_zoom s.chunks with
    | none => rw [hsmz] at hu; simp at hu
    | some mz =>
      rw [hsmz] at hu
      simp only [List.mem_flatMap] at hu
      obtain ⟨c, hc, hu⟩ := hu
      rw [mem_chunk_path_iff] at hu
      obtain ⟨k, hk, rfl⟩ := hu
      exact ⟨s, hs, mz, hsmz, c, hc, k, hk, rfl⟩
  · rintro ⟨s, hs, mz, hsmz, c, hc, k, hk, rfl⟩
    refine ⟨s, hs, ?_⟩
    rw [hsmz]
    simp only [List.mem_flatMap]
    exact ⟨c, hc, (mem_chunk_path_iff _ _ _ _).mpr ⟨k, hk, rfl⟩⟩

/-! ## Claim C8: the `ilog2` argument is always positive -/

/-- C8: for every surface with at least one chunk, the planner's value
`max(1−min_x, 1−min_y, max_x, max_y)` is at least 1, so `i32::ilog2` is
applied only to a positive value and its panic branch is unreachable; in
consequence the whole planner never fails. -/
theorem claim_C8_ilog2_safe {Img TagT : Type} :
    (∀ (chunks : List Coordinate) (first : Coordinate) (cs : List Coordinate),
      chunks = first :: cs →
      ∃ m, surface_max chunks = some m ∧ 1 ≤ m ∧
        checked_ilog2 m = some (rust_ilog2 m.toNat))
    ∧ (∀ info : List (SurfaceInfo TagT),
        ∃ tc : ThreadContext Img TagT, ThreadContext.new info = .ok tc) := by
  constructor
  · rintro chunks first cs rfl
    exact ⟨bounds_spread (chunk_bounds first (first :: cs)), rfl,
      bounds_spread_pos _ (chunk_bounds_min_le_max _ _).1,
      checked_ilog2_pos _ (bounds_spread_pos _ (chunk_bounds_min_le_max _ _).1)⟩
  · intro info
    obtain ⟨r, hr⟩ := @plan_surfaces_ok Img TagT info [] []
    exact ⟨ThreadContext.mk info r.1 r.2 0 r.1.length,
      by rw [ThreadContext.new, hr]; rfl⟩

/-- C8 witness: the planner value and success at a one-chunk manifest. -/
theorem claim_C8_ilog2_safe_witness :
    ∃ m, surface_max [⟨0, 0⟩] = some m ∧ 1 ≤ m ∧
      checked_ilog2 m = some (rust_ilog2 m.toNat) :=
  (@claim_C8_ilog2_safe Unit Unit).1 [⟨0, 0⟩] ⟨0, 0⟩ [] rfl

/-! ## Claim C1: the min-zoom formula (corrected: floor log₂, not ceiling) -/

/-- Modelled from the spec's words only, for refutation: `ceil_log2`, the
ceiling of the base-2 logarithm. -/
def ceil_log2 (n : Nat) : Nat := Nat.clog 2 n

/-- C1 counterexample: with chunks `(0,0)` and `(3,0)` the planner's `max`
is 3; the code computes `min_zoom = 20 − ilog2(3) − 6 = 20 − 1 − 6 = 13`
(floor log₂), while the claimed formula gives
`20 − ceil_log2(3) − 6 = 20 − 2 − 6 = 12`. -/
theorem claim_C1_counterexample :
    (@ThreadContext.new Unit Unit
        [{ name := "s", tags := [], chunks := [⟨0, 0⟩, ⟨3, 0⟩] }]).map
      (fun tc => alLookup tc.min_zoom "s") = .ok (some 13)
    ∧ MAX_ZOOM - (ceil_log2 3 : Int) - 6 = 12
    ∧ (13 : Int) ≠ 12 := by
  refine ⟨rfl, ?_, by decide⟩
  have h3 : ceil_log2 3 = 2 := by
    unfold ceil_log2
    rw [Nat.clog_of_two_le (by norm_num) (by norm_num)]
    norm_num
    rw [Nat.clog_of_two_le (by norm_num) (by norm_num)]
    norm_num [Nat.clog_one_right]
  rw [h3]
  decide

/-- C1 (amended): for every surface with at least one chunk, the planner
computes `min_zoom = MAX_ZOOM − floor_log2(max(1−min_x, 1−min_y, max_x,
max_y)) − 6` (Rust `ilog2`, i.e. the floor of log₂, not the ceiling),
where the bounds are the true minima/maxima over the surface's chunk
coordinates; for a single chunk at `(0,0)` the result is 14. -/
theorem claim_C1_min_zoom (Img TagT : Type) (info : List (SurfaceInfo TagT))
    (s : SurfaceInfo TagT) (first : Coordinate) (cs : List Coordinate)
    (tc : ThreadContext Img TagT)
    (hnd : (info.map SurfaceInfo.name).Nodup)
    (hs : s ∈ info)
    (hchunks : s.chunks = first :: cs)
    (hnew : ThreadContext.new info = .ok tc) :
    (∀ c ∈ s.chunks,
      (chunk_bounds first s.chunks).min_x ≤ c.x ∧
      c.x ≤ (chunk_bounds first s.chunks).max_x ∧
      (chunk_bounds first s.chunks).min_y ≤ c.y ∧
      c.y ≤ (chunk_bounds first s.chunks).max_y)
    ∧ (∃ c ∈ s.chunks, (chunk_bounds first s.chunks).min_x = c.x)
    ∧ (∃ c ∈ s.chunks, (chunk_bounds first s.chunks).max_x = c.x)
    ∧ (∃ c ∈ s.chunks, (chunk_bounds first s.chunks).min_y = c.y)
    ∧ (∃ c ∈ s.chunks, (chunk_bounds first s.chunks).max_y = c.y)
    ∧ (∃ l : Nat,
        (2 : Int) ^ l ≤ bounds_spread (chunk_bounds first s.chunks) ∧
        bounds_spread (chunk_bounds first s.chunks) < (2 : Int) ^ (l + 1) ∧
        alLookup tc.min_zoom s.name = some (MAX_ZOOM - (l : Int) - 6))
    ∧ (s.chunks = [⟨0, 0⟩] → alLookup tc.min_zoom s.name = some 14) := by
  obtain ⟨tilesF, mzmF, hok, _, _, _, h4, _, _⟩ :=
    @plan_surfaces_spec Img TagT info [] [] hnd
      (by intro _ _ u hu; simp [alKeys] at hu) (by intro p hp; simp at hp)
      (by simp [alKeys])
  rw [ThreadContext.new, hok] at hnew
  have htc : tc.min_zoom = mzmF := by
    cases hnew
    rfl
  have hlookup : alLookup tc.min_zoom s.name = surface_min_zoom s.chunks := by
    rw [htc]
    exact h4 s hs (by rw [hchunks]; simp)
  have hfirst : first ∈ s.chunks := by rw [hchunks]; exact List.mem_cons_self _ _
  obtain ⟨hall, hbx1, hbx2, hby1, hby2⟩ := chunk_bounds_spec first s.chunks
  have hminmax := chunk_bounds_min_le_max first s.chunks
  have hspread : 1 ≤ bounds_spread (chunk_bounds first s.chunks) :=
    bounds_spread_pos _ hminmax.1
  refine ⟨hall, ?_, ?_, ?_, ?_, ?_, ?_⟩
  · rcases hbx1 with h | h
    · exact ⟨first, hfirst, h⟩
    · exact h
  · rcases hbx2 with h | h
    · exact ⟨first, hfirst, h⟩
    · exact h
  · rcases hby1 with h | h
    · exact ⟨first, hfirst, h⟩
    · exact h
  · rcases hby2 with h | h
    · exact ⟨first, hfirst, h⟩
    · exact h
  · refine ⟨rust_ilog2 (bounds_spread (chunk_bounds first s.chunks)).toNat, ?_, ?_, ?_⟩
    · have h1 : 1 ≤ (bounds_spread (chunk_bounds first s.chunks)).toNat := by omega
      have := (rust_ilog2_spec _ h1).1
      have h2 : ((bounds_spread (chunk_bounds first s.chunks)).toNat : Int) =
          bounds_spread (chunk_bounds first s.chunks) := by omega
      calc (2 : Int) ^ rust_ilog2 (bounds_spread (chunk_bounds first s.chunks)).toNat
          = ((2 ^ rust_ilog2 (bounds_spread (chunk_bounds first s.chunks)).toNat : Nat) : Int) := by
            push_cast; ring
        _ ≤ ((bounds_spread (chunk_bounds first s.chunks)).toNat : Int) := by exact_mod_cast this
        _ = bounds_spread (chunk_bounds first s.chunks) := h2
    · have h1 : 1 ≤ (bounds_spread (chunk_bounds first s.chunks)).toNat := by omega
      have := (rust_ilog2_spec _ h1).2
      have h2 : ((bounds_spread (chunk_bounds first s.chunks)).toNat : Int) =
          bounds_spread (chunk_bounds first s.chunks) := by omega
      calc bounds_spread (chunk_bounds first s.chunks)
          = ((bounds_spread (chunk_bounds first s.chunks)).toNat : Int) := h2.symm
        _ < ((2 ^ (rust_ilog2 (bounds_spread (chunk_bounds first s.chunks)).toNat + 1) : Nat) : Int) := by
            exact_mod_cast this
        _ = (2 : Int) ^ (rust_ilog2 (bounds_spread (chunk_bounds first s.chunks)).toNat + 1) := by
            push_cast; ring
    · rw [hlookup, hchunks]
      show (match checked_ilog2 (bounds_spread (chunk_bounds first (first :: cs))) with
        | none => none
        | some l => some (MAX_ZOOM - (l : Int) - 6)) = _
      rw [hchunks] at hspread
      rw [checked_ilog2_pos _ hspread]
  · intro hone
    rw [hlookup, hone]
    rfl

/-- C1 witness: a two-surface manifest evaluated at the surface `"nauvis"`
with the single chunk `(0,0)` gives `min_zoom = 14`. -/
theorem claim_C1_min_zoom_witness :
    ∃ tc : ThreadContext Unit Unit,
      @ThreadContext.new Unit Unit
        [{ name := "nauvis", tags := [], chunks := [⟨0, 0⟩] }] = .ok tc ∧
      alLookup tc.min_zoom "nauvis" = some 14 := by
  refine ⟨_, rfl, ?_⟩
  exact (claim_C1_min_zoom Unit Unit
    [{ name := "nauvis", tags := [], chunks := [⟨0, 0⟩] }]
    { name := "nauvis", tags := [], chunks := [⟨0, 0⟩] } ⟨0, 0⟩ []
    _ (by decide) (List.mem_cons_self _ _) rfl rfl).2.2.2.2.2.2 rfl

/-! ## Claim C3: planning completeness, minimality and invariants -/

/-- C3: after planning, the registry holds exactly the union over every
surface and every chunk of the tiles on the upward path from
`(MAX_ZOOM, cx, cy)` down to zoom `min_zoom+1`, each exactly once (the key
list has no duplicates, shared ancestors appear once), every registry tile
is `Waiting` with zoom in `[min_zoom+1 .. MAX_ZOOM]` for its surface's
min-zoom, and `total_tiles` is the cardinality of that union; a surface
with no chunks contributes no tiles and gets no `min_zoom` entry. -/
theorem claim_C3_planning {Img TagT : Type} (info : List (SurfaceInfo TagT))
    (tc : ThreadContext Img TagT)
    (hnd : (info.map SurfaceInfo.name).Nodup)
    (hnew : ThreadContext.new info = .ok tc) :
    (alKeys tc.tiles).Nodup
    ∧ (∀ u, u ∈ alKeys tc.tiles ↔ u ∈ planned_tiles info)
    ∧ (∀ p ∈ tc.tiles, p.2 = TileState.Waiting)
    ∧ (∀ u ∈ alKeys tc.tiles, ∃ mz, alLookup tc.min_zoom u.surface = some mz ∧
        mz + 1 ≤ u.zoom ∧ u.zoom ≤ MAX_ZOOM)
    ∧ tc.total_tiles = (planned_tiles info).toFinset.card
    ∧ (∀ s ∈ info, s.chunks = [] →
        alLookup tc.min_zoom s.name = none ∧
        ∀ u ∈ alKeys tc.tiles, u.surface ≠ s.name) := by
  obtain ⟨tilesF, mzmF, hok, hmemb, hW, hndF, h4, h6, h7⟩ :=
    @plan_surfaces_spec Img TagT info [] [] hnd
      (by intro _ _ u hu; simp [alKeys] at hu) (by intro p hp; simp at hp)
      (by simp [alKeys])
  rw [ThreadContext.new, hok] at hnew
  cases hnew
  have hmemb' : ∀ u, u ∈ alKeys tilesF ↔ u ∈ planned_tiles info := by
    intro u
    rw [hmemb u]
    simp [alKeys]
  refine ⟨hndF, hmemb', hW, ?_, ?_, ?_⟩
  · intro u hu
    rw [hmemb' u, mem_planned_tiles] at hu
    obtain ⟨s, hs, mz, hsmz, c, hc, k, hk, rfl⟩ := hu
    refine ⟨mz, ?_, ?_, ?_⟩
    · rw [iter_out_surface]
      show alLookup mzmF (Tile.mk s.name MAX_ZOOM c.x c.y).surface = some mz
      rw [h4 s hs (List.ne_nil_of_mem hc)]
      exact hsmz
    · rw [iter_out_zoom]
      show mz + 1 ≤ MAX_ZOOM - (k : Int)
      have : (k : Int) < MAX_ZOOM - mz := by omega
      omega
    · rw [iter_out_zoom]
      show MAX_ZOOM - (k : Int) ≤ MAX_ZOOM
      omega
  · show tilesF.length = (planned_tiles info).toFinset.card
    have hlen : tilesF.length = (alKeys tilesF).length := by
      unfold alKeys
      rw [List.length_map]
    have hset : (alKeys tilesF).toFinset = (planned_tiles info).toFinset := by
      apply Finset.ext
      intro u
      rw [List.mem_toFinset, List.mem_toFinset]
      exact hmemb' u
    rw [hlen, ← List.toFinset_card_of_nodup hndF, hset]
  · intro s hs hch
    constructor
    · rw [h6 s hs hch]
      rfl
    · intro u hu hcontra
      rw [hmemb' u, mem_planned_tiles] at hu
      obtain ⟨s', hs', mz, hsmz, c, hc, k, hk, rfl⟩ := hu
      rw [iter_out_surface] at hcontra
      have hname : s'.name = s.name := hcontra
      have : s' = s := List.inj_on_of_nodup_map hnd hs' hs hname
      subst this
      rw [hch] at hc
      simp at hc

/-- C3 witness: the whole planning theorem evaluated on a concrete
one-surface, one-chunk manifest. -/
theorem claim_C3_planning_witness :
    (@ThreadContext.new Unit Unit
        [{ name := "a", tags := [], chunks := [⟨0, 0⟩] }]).map
      (fun tc => tc.total_tiles) =
    .ok ((planned_tiles
        ([{ name := "a", tags := [], chunks := [⟨0, 0⟩] }] :
          List (SurfaceInfo Unit))).toFinset.card) := by
  obtain ⟨tc, htc⟩ : ∃ tc, @ThreadContext.new Unit Unit
      [{ name := "a", tags := [], chunks := [⟨0, 0⟩] }] = .ok tc := ⟨_, rfl⟩
  rw [htc]
  have h := (claim_C3_planning
    [{ name := "a", tags := [], chunks := [⟨0, 0⟩] }] tc (by decide) htc).2.2.2.2.1
  rw [Except.map, h]

/-! ## The coordinator event loop (`main_loop`) -/

/-- The parsed payload of a `MessageToMain::File` virtual file.  The
handler branches on the file name (`info.json` → JSON manifest) or on the
extension (`.bmp` → chunk image whose stem is `surface,x,y`); all other
files are ignored.  JSON and file-stem parsing are external (serde /
`str::parse`), so files are modelled at parse level. -/
inductive FileData (TagT : Type) where
  | infoJson (info : List (SurfaceInfo TagT))
  | bmp (surface : String) (x y : Int) (data : List Nat)
  | other

/-- `MessageToMain` from render.rs. -/
inductive MessageToMain (Img TagT : Type) where
  | Finished
  | Killed
  | File (file : FileData TagT)
  | FinishReadImage (tile : Tile) (image : Img)
  | FinishWriteParts (tile : Tile) (image : Img)
  | FinishBuildParent (parent : Tile) (image : Img)

/-- `MessageToWorker` from render.rs. -/
inductive MessageToWorker (Img : Type) where
  | ReadImage (tile : Tile) (data : List Nat)
  | TileWriteParts (tile : Tile) (image : Img)
  | TileBuildParent (parent : Tile) (children : List (Tile × Img))

/-- `ThreadContext::tile_ready` over a child list, visiting children in
order: `Loaded` and absent children are ready, a `Waiting` child answers
not-ready, and reading a `Processed` child is the `panic!` branch. -/
def tile_ready_list {Img : Type} (tiles : Reg Img) : List Tile → Except Unit Bool
  | [] => .ok true
  | c :: rest =>
    match alLookup tiles c with
    | some (TileState.Loaded _) => tile_ready_list tiles rest
    | some TileState.Waiting => .ok false
    | some TileState.Processed => .error ()
    | none => tile_ready_list tiles rest

/-- `ThreadContext::tile_ready`. -/
def tile_ready {Img TagT : Type} (tc : ThreadContext Img TagT) (tile : Tile) :
    Except Unit Bool :=
  tile_ready_list tc.tiles tile.children

/-- The child-collection loop of the `FinishWriteParts` arm: every child
present in the registry is `TileState::take`n — moved to `Processed`, its
image collected — with the `panic!` on a non-`Loaded` state as `error`. -/
def take_children {Img : Type} : Reg Img → List Tile →
    Except Unit (Reg Img × List (Tile × Img))
  | tiles, [] => .ok (tiles, [])
  | tiles, c :: rest =>
    match alLookup tiles c with
    | none => take_children tiles rest
    | some (TileState.Loaded img) =>
      match take_children (alUpsert tiles c TileState.Processed) rest with
      | .ok (tiles', l) => .ok (tiles', (c, img) :: l)
      | .error e => .error e
    | some _ => .error ()

/-- One surface's entry of the final map-index document. -/
structure SurfaceOut (TagT : Type) where
  tiles : List (Int × Int × Int)
  tags : List (String × List TagT)

/-- The map-index document (`MapInfo` in render.rs). -/
structure MapInfo (TagT : Type) where
  surfaces : List (String × SurfaceOut TagT)
  extension : String

/-- The per-tile loop of the map-index emitter:
`surfaces.get_mut(&tile.surface).unwrap().tiles.extend(parts)`. -/
def extend_tiles {TagT : Type} :
    List (String × SurfaceOut TagT) → List Tile →
    Except Unit (List (String × SurfaceOut TagT))
  | m, [] => .ok m
  | m, t :: rest =>
    match alLookup m t.surface with
    | none => .error ()
    | some so =>
      extend_tiles
        (alUpsert m t.surface
          ⟨so.tiles ++ get_tile_parts.map (fun p => p.get_path_components t),
            so.tags⟩)
        rest

/-- The map-index emitter inside the `FinishWriteParts` arm of `main_loop`:
every manifest surface gets an entry with empty tiles and its tags carried
through unchanged, then every registry tile appends its part coordinates to
its surface's entry (`unwrap` on a missing surface is `error`). -/
def build_map_index {Img TagT : Type} (info : List (SurfaceInfo TagT))
    (tiles : Reg Img) : Except Unit (MapInfo TagT) :=
  (extend_tiles
    (info.foldl (fun m s => alUpsert m s.name ⟨[], s.tags⟩) [])
    (alKeys tiles)).map (fun m => ⟨m, TILE_EXTENSION⟩)

/-- The parent-dispatch block of the `FinishWriteParts` arm:
`if parent.zoom > min_zoom && tile_ready(parent) { take children;
send TileBuildParent }`. -/
def fwp_dispatch {Img TagT : Type} (tc1 : ThreadContext Img TagT)
    (parent : Tile) (mz : Int) :
    Except Unit (ThreadContext Img TagT × List (MessageToWorker Img)) :=
  if mz < parent.zoom then
    match tile_ready_list tc1.tiles parent.children with
    | .error e => .error e
    | .ok true =>
      match take_children tc1.tiles parent.children with
      | .error e => .error e
      | .ok (tiles2, children) =>
        .ok ({ tc1 with tiles := tiles2 },
          [MessageToWorker.TileBuildParent parent children])
    | .ok false => .ok (tc1, [])
  else .ok (tc1, [])

/-- The completion block of the `FinishWriteParts` arm: when
`loaded_tiles == total_tiles`, run the map-index emitter (`mem::take`
empties `info`) and emit `Finished`. -/
def fwp_finalize {Img TagT : Type} (tc2 : ThreadContext Img TagT)
    (work : List (MessageToWorker Img)) :
    Except Unit (ThreadContext Img TagT × List (MessageToWorker Img) ×
      Bool × Option (MapInfo TagT)) :=
  if tc2.loaded_tiles = tc2.total_tiles then
    match build_map_index tc2.info tc2.tiles with
    | .error e => .error e
    | .ok idx => .ok ({ tc2 with info := [] }, work, true, some idx)
  else .ok (tc2, work, false, none)

/-- The `FinishWriteParts` arm of `main_loop`: count progress, insert the
tile as `Loaded`, run the dispatch block on its parent, then the
completion block. -/
def step_finish_write_parts {Img TagT : Type} (tc : ThreadContext Img TagT)
    (tile : Tile) (image : Img) :
    Except Unit (ThreadContext Img TagT × List (MessageToWorker Img) ×
      Bool × Option (MapInfo TagT)) :=
  let tc1 : ThreadContext Img TagT :=
    { tc with
        loaded_tiles := tc.loaded_tiles + 1,
        tiles := alUpsert tc.tiles tile (TileState.Loaded image) }
  match alLookup tc1.min_zoom tile.surface with
  | none => .error ()
  | some mz =>
    match fwp_dispatch tc1 tile.zoom_out mz with
    | .error e => .error e
    | .ok (tc2, work) => fwp_finalize tc2 work

/-- What `main_loop` does after handling one message. -/
inductive LoopControl where
  | cont
  | breakFinished
  | breakKilled

/-- The observable result of one `main_loop` iteration. -/
structure StepResult (Img TagT : Type) where
  ctx : Option (ThreadContext Img TagT)
  work : List (MessageToWorker Img)
  finished_emitted : Bool
  map_index : Option (MapInfo TagT)
  control : LoopControl

/-- One iteration of `main_loop` on the received message. -/
def main_loop_step {Img TagT : Type} (ctx : Option (ThreadContext Img TagT)) :
    MessageToMain Img TagT → Except Unit (StepResult Img TagT)
  | .Killed => .ok ⟨ctx, [], false, none, .breakKilled⟩
  | .Finished => .ok ⟨ctx, [], false, none, .breakFinished⟩
  | .File (.infoJson info) =>
    match ctx with
    | some _ => .error ()
    | none =>
      (ThreadContext.new info).map (fun tc => ⟨some tc, [], false, none, .cont⟩)
  | .File (.bmp surface x y data) =>
    .ok ⟨ctx, [.ReadImage ⟨surface, MAX_ZOOM, x, y⟩ data], false, none, .cont⟩
  | .File .other => .ok ⟨ctx, [], false, none, .cont⟩
  | .FinishReadImage tile image =>
    .ok ⟨ctx, [.TileWriteParts tile image], false, none, .cont⟩
  | .FinishWriteParts tile image =>
    match ctx with
    | none => .error ()
    | some tc =>
      (step_finish_write_parts tc tile image).map
        (fun r => ⟨some r.1, r.2.1, r.2.2.1, r.2.2.2, .cont⟩)
  | .FinishBuildParent parent image =>
    .ok ⟨ctx, [.TileWriteParts parent image], false, none, .cont⟩

/-- How a `main_loop` run ended. -/
inductive RunOutcome where
  | finished
  | killed
  | drained
deriving DecidableEq

/-- The observables of a whole `main_loop` run. -/
structure RunResult (Img TagT : Type) where
  ctx : Option (ThreadContext Img TagT)
  work : List (MessageToWorker Img)
  finished_count : Nat
  map_indexes : List (MapInfo TagT)
  outcome : RunOutcome

/-- `main_loop`: process received messages until `Killed` or `Finished`
breaks the loop (or the queue closes), accumulating all sent work
messages, `Finished` emissions and map-index emissions. -/
def main_loop {Img TagT : Type} (ctx : Option (ThreadContext Img TagT)) :
    List (MessageToMain Img TagT) → Except Unit (RunResult Img TagT)
  | [] => .ok ⟨ctx, [], 0, [], .drained⟩
  | msg :: rest =>
    match main_loop_step ctx msg with
    | .error e => .error e
    | .ok r =>
      match r.control with
      | .breakFinished => .ok ⟨r.ctx, r.work, 0, [], .finished⟩
      | .breakKilled => .ok ⟨r.ctx, r.work, 0, [], .killed⟩
      | .cont =>
        match main_loop r.ctx rest with
        | .error e => .error e
        | .ok rr =>
          .ok ⟨rr.ctx, r.work ++ rr.work,
            (if r.finished_emitted then 1 else 0) + rr.finished_count,
            r.map_index.toList ++ rr.map_indexes, rr.outcome⟩

/-! ## Readiness and take-children specifications -/

/-- The readiness test of one child: `Loaded` or absent. -/
def loaded_or_absent {Img : Type} : Option (TileState Img) → Bool
  | none => true
  | some (TileState.Loaded _) => true
  | some _ => false

theorem tile_ready_list_ok_true_iff {Img : Type} (tiles : Reg Img) :
    ∀ cs : List Tile,
      tile_ready_list tiles cs = .ok true ↔
        ∀ c ∈ cs, loaded_or_absent (alLookup tiles c) = true := by
  intro cs
  induction cs with
  | nil => simp [tile_ready_list]
  | cons c rest ih =>
    rw [tile_ready_list]
    cases hc : alLookup tiles c with
    | none =>
      rw [ih]
      constructor
      · intro h c' hc'
        rcases List.mem_cons.mp hc' with rfl | hc'
        · rw [hc]; rfl
        · exact h c' hc'
      · intro h c' hc'
        exact h c' (List.mem_cons_of_mem _ hc')
    | some st =>
      cases st with
      | Loaded img =>
        rw [ih]
        constructor
        · intro h c' hc'
          rcases List.mem_cons.mp hc' with rfl | hc'
          · rw [hc]; rfl
          · exact h c' hc'
        · intro h c' hc'
          exact h c' (List.mem_cons_of_mem _ hc')
      | Waiting =>
        constructor
        · intro h
          exact absurd h (by simp)
        · intro h
          have := h c (List.mem_cons_self _ _)
          rw [hc] at this
          exact absurd this (by simp [loaded_or_absent])
      | Processed =>
        constructor
        · intro h
          exact absurd h (by simp)
        · intro h
          have := h c (List.mem_cons_self _ _)
          rw [hc] at this
          exact absurd this (by simp [loaded_or_absent])

theorem tile_ready_no_processed {Img : Type} (tiles : Reg Img) (cs : List Tile)
    (h : tile_ready_list tiles cs = .ok true) :
    ∀ c ∈ cs, alLookup tiles c ≠ some TileState.Processed := by
  intro c hc hcontra
  have := (tile_ready_list_ok_true_iff tiles cs).mp h c hc
  rw [hcontra] at this
  exact absurd this (by simp [loaded_or_absent])

theorem take_children_lookup_not_mem {Img : Type} :
    ∀ (cs : List Tile) (tiles tiles' : Reg Img) (l : List (Tile × Img)) (t : Tile),
      take_children tiles cs = .ok (tiles', l) → t ∉ cs →
      alLookup tiles' t = alLookup tiles t := by
  intro cs
  induction cs with
  | nil =>
    intro tiles tiles' l t h _
    cases h
    rfl
  | cons c rest ih =>
    intro tiles tiles' l t h ht
    have htc : t ≠ c := fun hc => ht (hc ▸ List.mem_cons_self _ _)
    have htr : t ∉ rest := fun hc => ht (List.mem_cons_of_mem _ hc)
    rw [take_children] at h
    cases hc : alLookup tiles c with
    | none =>
      rw [hc] at h
      exact ih tiles tiles' l t h htr
    | some st =>
      rw [hc] at h
      cases st with
      | Loaded img =>
        cases hrec : take_children (alUpsert tiles c TileState.Processed) rest with
        | error e => rw [hrec] at h; cases h
        | ok res =>
          rw [hrec] at h
          cases h
          rw [ih _ _ _ t hrec htr]
          exact alLookup_upsert_ne _ _ _ _ htc
      | Waiting => cases h
      | Processed => cases h

theorem take_children_mem_processed {Img : Type} :
    ∀ (cs : List Tile) (tiles tiles' : Reg Img) (l : List (Tile × Img)),
      cs.Nodup →
      take_children tiles cs = .ok (tiles', l) →
      ∀ c ∈ cs, (alLookup tiles c).isSome →
        alLookup tiles' c = some TileState.Processed := by
  intro cs
  induction cs with
  | nil =>
    intro tiles tiles' l _ _ c hc
    simp at hc
  | cons c0 rest ih =>
    intro tiles tiles' l hnd h c hc hsome
    obtain ⟨hc0r, hndr⟩ := List.nodup_cons.mp hnd
    rw [take_children] at h
    rcases List.mem_cons.mp hc with rfl | hcr
    · cases hl : alLookup tiles c with
      | none => rw [hl] at hsome; simp at hsome
      | some st =>
        rw [hl] at h
        cases st with
        | Loaded img =>
          cases hrec : take_children (alUpsert tiles c TileState.Processed) rest with
          | error e => rw [hrec] at h; cases h
          | ok res =>
            rw [hrec] at h
            cases h
            rw [take_children_lookup_not_mem rest _ _ _ c hrec hc0r]
            exact alLookup_upsert_self _ _ _
        | Waiting => cases h
        | Processed => cases h
    · have hne : c ≠ c0 := fun hcc => hc0r (hcc ▸ hcr)
      cases hl : alLookup tiles c0 with
      | none =>
        rw [hl] at h
        exact ih tiles tiles' l hndr h c hcr hsome
      | some st =>
        rw [hl] at h
        cases st with
        | Loaded img =>
          cases hrec : take_children (alUpsert tiles c0 TileState.Processed) rest with
          | error e => rw [hrec] at h; cases h
          | ok res =>
            rw [hrec] at h
            cases h
            refine ih _ _ _ hndr hrec c hcr ?_
            rw [alLookup_upsert_ne _ _ _ _ hne]
            exact hsome
        | Waiting => cases h
        | Processed => cases h

theorem take_children_preserves_processed {Img : Type} :
    ∀ (cs : List Tile) (tiles tiles' : Reg Img) (l : List (Tile × Img)) (t : Tile),
      take_children tiles cs = .ok (tiles', l) →
      alLookup tiles t = some TileState.Processed →
      alLookup tiles' t = some TileState.Processed := by
  intro cs
  induction cs with
  | nil =>
    intro tiles tiles' l t h hp
    cases h
    exact hp
  | cons c0 rest ih =>
    intro tiles tiles' l t h hp
    rw [take_children] at h
    cases hl : alLookup tiles c0 with
    | none =>
      rw [hl] at h
      exact ih tiles tiles' l t h hp
    | some st =>
      rw [hl] at h
      cases st with
      | Loaded img =>
        cases hrec : take_children (alUpsert tiles c0 TileState.Processed) rest with
        | error e => rw [hrec] at h; cases h
        | ok res =>
          rw [hrec] at h
          cases h
          have hne : t ≠ c0 := by
            intro hcc
            rw [hcc, hl] at hp
            cases hp
          refine ih _ _ _ t hrec ?_
          rw [alLookup_upsert_ne _ _ _ _ hne]
          exact hp
      | Waiting => cases h
      | Processed => cases h

theorem take_children_contents {Img : Type} :
    ∀ (cs : List Tile) (tiles tiles' : Reg Img) (l : List (Tile × Img)),
      cs.Nodup →
      take_children tiles cs = .ok (tiles', l) →
      (∀ pr ∈ l, pr.1 ∈ cs ∧ alLookup tiles pr.1 = some (TileState.Loaded pr.2))
      ∧ (∀ c ∈ cs, (alLookup tiles c).isSome → ∃ img, (c, img) ∈ l) := by
  intro cs
  induction cs with
  | nil =>
    intro tiles tiles' l _ h
    cases h
    constructor
    · intro pr hpr
      simp at hpr
    · intro c hc
      simp at hc
  | cons c0 rest ih =>
    intro tiles tiles' l hnd h
    obtain ⟨hc0r, hndr⟩ := List.nodup_cons.mp hnd
    rw [take_children] at h
    cases hl : alLookup tiles c0 with
    | none =>
      rw [hl] at h
      obtain ⟨h1, h2⟩ := ih tiles tiles' l hndr h
      constructor
      · intro pr hpr
        exact ⟨List.mem_cons_of_mem _ (h1 pr hpr).1, (h1 pr hpr).2⟩
      · intro c hc hsome
        rcases List.mem_cons.mp hc with rfl | hcr
        · rw [hl] at hsome; simp at hsome
        · exact h2 c hcr hsome
    | some st =>
      rw [hl] at h
      cases st with
      | Loaded img =>
        cases hrec : take_children (alUpsert tiles c0 TileState.Processed) rest with
        | error e => rw [hrec] at h; cases h
        | ok res =>
          rw [hrec] at h
          cases h
          obtain ⟨h1, h2⟩ := ih _ _ _ hndr hrec
          constructor
          · intro pr hpr
            rcases List.mem_cons.mp hpr with rfl | hpr
            · exact ⟨List.mem_cons_self _ _, hl⟩
            · have := h1 pr hpr
              have hne : pr.1 ≠ c0 := fun hcc => hc0r (hcc ▸ this.1)
              refine ⟨List.mem_cons_of_mem _ this.1, ?_⟩
              rw [← this.2]
              exact (alLookup_upsert_ne _ _ _ _ hne).symm
          · intro c hc hsome
            rcases List.mem_cons.mp hc with rfl | hcr
            · exact ⟨img, List.mem_cons_self _ _⟩
            · have hne : c ≠ c0 := fun hcc => hc0r (hcc ▸ hcr)
              have hsome' : (alLookup (alUpsert tiles c0 TileState.Processed) c).isSome := by
                rw [alLookup_upsert_ne _ _ _ _ hne]
                exact hsome
              obtain ⟨img', hmem⟩ := h2 c hcr hsome'
              exact ⟨img', List.mem_cons_of_mem _ hmem⟩
      | Waiting => cases h
      | Processed => cases h

/-! ## Step-level inversion of the `FinishWriteParts` arm -/

theorem children_nodup (t : Tile) : t.children.Nodup := by
  have hinj : Function.Injective (fun p : Int × Int => (t.zoom_in).translate p.1 p.2) := by
    intro p q he
    simp only [Tile.zoom_in, Tile.translate] at he
    injection he with h1 h2 h3 h4
    apply Prod.ext <;> omega
  rw [Tile.children]
  exact List.Nodup.map hinj (by decide)

theorem mem_children_zoom_out (t : Tile) : t ∈ (t.zoom_out).children := by
  obtain ⟨s, z, x, y⟩ := t
  have hx := fdiv_two_rem x
  have hy := fdiv_two_rem y
  simp only [Tile.children, Tile.zoom_out, Tile.zoom_in, Tile.translate,
    List.map_cons, List.map_nil, List.mem_cons, List.not_mem_nil, or_false,
    Tile.mk.injEq]
  rcases hx with hx | hx <;> rcases hy with hy | hy
  · exact Or.inl ⟨trivial, by omega, by omega, by omega⟩
  · exact Or.inr (Or.inr (Or.inl ⟨trivial, by omega, by omega, by omega⟩))
  · exact Or.inr (Or.inl ⟨trivial, by omega, by omega, by omega⟩)
  · exact Or.inr (Or.inr (Or.inr ⟨trivial, by omega, by omega, by omega⟩))

theorem fwp_dispatch_inversion {Img TagT : Type} (tc1 : ThreadContext Img TagT)
    (parent : Tile) (mz : Int)
    (res : ThreadContext Img TagT × List (MessageToWorker Img))
    (h : fwp_dispatch tc1 parent mz = .ok res) :
    res.1.loaded_tiles = tc1.loaded_tiles ∧ res.1.total_tiles = tc1.total_tiles ∧
    res.1.min_zoom = tc1.min_zoom ∧ res.1.info = tc1.info ∧
    ((mz < parent.zoom ∧ tile_ready_list tc1.tiles parent.children = .ok true ∧
      ∃ children,
        take_children tc1.tiles parent.children = .ok (res.1.tiles, children) ∧
        res.2 = [MessageToWorker.TileBuildParent parent children])
     ∨ ((¬ mz < parent.zoom ∨ tile_ready_list tc1.tiles parent.children = .ok false) ∧
        res.1 = tc1 ∧ res.2 = [])) := by
  rw [fwp_dispatch] at h
  by_cases hz : mz < parent.zoom
  · rw [if_pos hz] at h
    cases hr : tile_ready_list tc1.tiles parent.children with
    | error e => rw [hr] at h; cases h
    | ok b =>
      rw [hr] at h
      cases b with
      | true =>
        cases ht : take_children tc1.tiles parent.children with
        | error e => rw [ht] at h; cases h
        | ok tk =>
          rw [ht] at h
          obtain rfl := Except.ok.inj h
          exact ⟨rfl, rfl, rfl, rfl, Or.inl ⟨hz, rfl, tk.2, rfl, rfl⟩⟩
      | false =>
        obtain rfl := Except.ok.inj h
        exact ⟨rfl, rfl, rfl, rfl, Or.inr ⟨Or.inr rfl, rfl, rfl⟩⟩
  · rw [if_neg hz] at h
    obtain rfl := Except.ok.inj h
    exact ⟨rfl, rfl, rfl, rfl, Or.inr ⟨Or.inl hz, rfl, rfl⟩⟩

theorem fwp_finalize_inversion {Img TagT : Type} (tc2 : ThreadContext Img TagT)
    (work : List (MessageToWorker Img))
    (out : ThreadContext Img TagT × List (MessageToWorker Img) ×
      Bool × Option (MapInfo TagT))
    (h : fwp_finalize tc2 work = .ok out) :
    out.2.1 = work ∧ out.1.loaded_tiles = tc2.loaded_tiles ∧
    out.1.total_tiles = tc2.total_tiles ∧ out.1.min_zoom = tc2.min_zoom ∧
    out.1.tiles = tc2.tiles ∧
    (out.2.2.1 = true ↔ tc2.loaded_tiles = tc2.total_tiles) ∧
    (out.2.2.1 = true →
      ∃ m, build_map_index tc2.info tc2.tiles = .ok m ∧ out.2.2.2 = some m) := by
  rw [fwp_finalize] at h
  by_cases hq : tc2.loaded_tiles = tc2.total_tiles
  · rw [if_pos hq] at h
    cases hb : build_map_index tc2.info tc2.tiles with
    | error e => rw [hb] at h; cases h
    | ok m =>
      rw [hb] at h
      obtain rfl := Except.ok.inj h
      exact ⟨rfl, rfl, rfl, rfl, rfl, by simp [hq], fun _ => ⟨m, rfl, rfl⟩⟩
  · rw [if_neg hq] at h
    obtain rfl := Except.ok.inj h
    exact ⟨rfl, rfl, rfl, rfl, rfl, by simp [hq], by simp⟩

theorem step_fwp_inversion {Img TagT : Type} (tc : ThreadContext Img TagT)
    (tile : Tile) (image : Img)
    (out : ThreadContext Img TagT × List (MessageToWorker Img) ×
      Bool × Option (MapInfo TagT))
    (h : step_finish_write_parts tc tile image = .ok out) :
    ∃ mz, alLookup tc.min_zoom tile.surface = some mz ∧
    out.1.loaded_tiles = tc.loaded_tiles + 1 ∧
    out.1.total_tiles = tc.total_tiles ∧
    out.1.min_zoom = tc.min_zoom ∧
    (out.2.2.1 = true ↔ tc.loaded_tiles + 1 = tc.total_tiles) ∧
    (out.2.2.1 = true → out.2.2.2.isSome) ∧
    ((mz < tile.zoom_out.zoom ∧
      tile_ready_list (alUpsert tc.tiles tile (TileState.Loaded image))
        tile.zoom_out.children = .ok true ∧
      ∃ children,
        take_children (alUpsert tc.tiles tile (TileState.Loaded image))
          tile.zoom_out.children = .ok (out.1.tiles, children) ∧
        out.2.1 = [MessageToWorker.TileBuildParent tile.zoom_out children])
     ∨ ((¬ mz < tile.zoom_out.zoom ∨
         tile_ready_list (alUpsert tc.tiles tile (TileState.Loaded image))
           tile.zoom_out.children = .ok false) ∧
        out.2.1 = [] ∧
        out.1.tiles = alUpsert tc.tiles tile (TileState.Loaded image))) := by
  rw [step_finish_write_parts] at h
  split at h
  · cases h
  · rename_i mz hmz
    split at h
    · cases h
    · rename_i tc2 work hd
      obtain ⟨hl2, ht2, hm2, hi2, hcase⟩ := fwp_dispatch_inversion _ _ _ (tc2, work) hd
      obtain ⟨hw3, hl3, ht3, hm3, htl3, hem3, hidx3⟩ :=
        fwp_finalize_inversion tc2 work out h
      refine ⟨mz, hmz, ?_, ?_, ?_, ?_, ?_, ?_⟩
      · rw [hl3, hl2]
      · rw [ht3, ht2]
      · rw [hm3, hm2]
      · rw [hem3, hl2, ht2]
      · intro hem
        obtain ⟨m, _, hm⟩ := hidx3 hem
        rw [hm]
        rfl
      · rcases hcase with ⟨hz, hr, children, htk, hwk⟩ | ⟨hcond, heq, hwk⟩
        · left
          refine ⟨hz, hr, children, ?_, ?_⟩
          · rw [htl3]; exact htk
          · rw [hw3]; exact hwk
        · right
          refine ⟨hcond, ?_, ?_⟩
          · rw [hw3]; exact hwk
          · rw [htl3]; exact congrArg ThreadContext.tiles heq

/-! ## Run-level bookkeeping -/

/-- The tiles of the `FinishWriteParts` messages of a message list. -/
def fwp_tiles {Img TagT : Type} (msgs : List (MessageToMain Img TagT)) : List Tile :=
  msgs.filterMap (fun m => match m with
    | MessageToMain.FinishWriteParts t _ => some t
    | _ => none)

/-- How often a `TileBuildParent` for parent `p` occurs in a work list. -/
def bp_count {Img : Type} (work : List (MessageToWorker Img)) (p : Tile) : Nat :=
  (work.filter (fun w => match w with
    | MessageToWorker.TileBuildParent q _ => decide (q = p)
    | _ => false)).length

theorem bp_count_append {Img : Type} (w1 w2 : List (MessageToWorker Img)) (p : Tile) :
    bp_count (w1 ++ w2) p = bp_count w1 p + bp_count w2 p := by
  unfold bp_count
  rw [List.filter_append, List.length_append]

theorem bp_count_single {Img : Type} (q : Tile) (ch : List (Tile × Img)) (p : Tile) :
    bp_count [MessageToWorker.TileBuildParent q ch] p = if q = p then 1 else 0 := by
  unfold bp_count
  by_cases h : q = p <;> simp [h]

theorem ThreadContext_new_loaded_tiles {Img TagT : Type}
    (info : List (SurfaceInfo TagT)) (tc : ThreadContext Img TagT)
    (h : ThreadContext.new info = .ok tc) : tc.loaded_tiles = 0 := by
  rw [ThreadContext.new] at h
  cases hp : @plan_surfaces Img TagT info [] [] with
  | error e => rw [hp] at h; cases h
  | ok r =>
    rw [hp] at h
    obtain rfl := Except.ok.inj h
    rfl

theorem main_loop_step_non_fwp {Img TagT : Type}
    (ctx : Option (ThreadContext Img TagT)) (msg : MessageToMain Img TagT)
    (r : StepResult Img TagT)
    (h : main_loop_step ctx msg = .ok r)
    (hmsg : ∀ tile image, msg ≠ MessageToMain.FinishWriteParts tile image) :
    r.finished_emitted = false ∧ (∀ p, bp_count r.work p = 0) ∧
    (r.ctx = ctx ∨
      (ctx = none ∧ ∃ tcnew, r.ctx = some tcnew ∧ tcnew.loaded_tiles = 0)) := by
  cases msg with
  | Finished =>
    obtain rfl := Except.ok.inj h
    exact ⟨rfl, fun p => rfl, Or.inl rfl⟩
  | Killed =>
    obtain rfl := Except.ok.inj h
    exact ⟨rfl, fun p => rfl, Or.inl rfl⟩
  | File file =>
    cases file with
    | infoJson info =>
      cases ctx with
      | some tc => cases h
      | none =>
        rw [main_loop_step] at h
        cases hn : @ThreadContext.new Img TagT info with
        | error e => rw [hn] at h; cases h
        | ok tcnew =>
          rw [hn] at h
          obtain rfl := Except.ok.inj h
          exact ⟨rfl, fun p => rfl,
            Or.inr ⟨rfl, tcnew, rfl, ThreadContext_new_loaded_tiles info tcnew hn⟩⟩
    | bmp surface x y data =>
      obtain rfl := Except.ok.inj h
      exact ⟨rfl, fun p => rfl, Or.inl rfl⟩
    | other =>
      obtain rfl := Except.ok.inj h
      exact ⟨rfl, fun p => rfl, Or.inl rfl⟩
  | FinishReadImage tile image =>
    obtain rfl := Except.ok.inj h
    exact ⟨rfl, fun p => rfl, Or.inl rfl⟩
  | FinishWriteParts tile image => exact absurd rfl (hmsg tile image)
  | FinishBuildParent parent image =>
    obtain rfl := Except.ok.inj h
    exact ⟨rfl, fun p => rfl, Or.inl rfl⟩

theorem main_loop_step_fwp {Img TagT : Type} (tc : ThreadContext Img TagT)
    (tile : Tile) (image : Img) (r : StepResult Img TagT)
    (h : main_loop_step (some tc) (MessageToMain.FinishWriteParts tile image) = .ok r) :
    ∃ out, step_finish_write_parts tc tile image = .ok out ∧
      r.ctx = some out.1 ∧ r.work = out.2.1 ∧ r.finished_emitted = out.2.2.1 ∧
      r.map_index = out.2.2.2 ∧ r.control = LoopControl.cont := by
  rw [main_loop_step] at h
  cases hs : step_finish_write_parts tc tile image with
  | error e => rw [hs] at h; cases h
  | ok out =>
    rw [hs] at h
    obtain rfl := Except.ok.inj h
    exact ⟨out, rfl, rfl, rfl, rfl, rfl, rfl⟩

theorem main_loop_cons_cont {Img TagT : Type}
    (ctx : Option (ThreadContext Img TagT)) (msg : MessageToMain Img TagT)
    (rest : List (MessageToMain Img TagT)) (r : StepResult Img TagT)
    (rr : RunResult Img TagT)
    (hs : main_loop_step ctx msg = .ok r) (hc : r.control = LoopControl.cont)
    (h : main_loop ctx (msg :: rest) = .ok rr) :
    ∃ rr', main_loop r.ctx rest = .ok rr' ∧
      rr.work = r.work ++ rr'.work ∧
      rr.finished_count = (if r.finished_emitted then 1 else 0) + rr'.finished_count ∧
      rr.map_indexes = r.map_index.toList ++ rr'.map_indexes ∧
      rr.outcome = rr'.outcome := by
  rw [main_loop] at h
  split at h
  · rename_i e heq
    rw [hs] at heq
    cases heq
  · rename_i r' heq
    rw [hs] at heq
    obtain rfl := Except.ok.inj heq
    split at h
    · rename_i hctl; rw [hctl] at hc; cases hc
    · rename_i hctl; rw [hctl] at hc; cases hc
    · split at h
      · rename_i e heq2
        cases h
      · rename_i rr' heq2
        obtain rfl := Except.ok.inj h
        exact ⟨rr', heq2, rfl, rfl, rfl, rfl⟩

theorem main_loop_cons_break {Img TagT : Type}
    (ctx : Option (ThreadContext Img TagT)) (msg : MessageToMain Img TagT)
    (rest : List (MessageToMain Img TagT)) (r : StepResult Img TagT)
    (rr : RunResult Img TagT)
    (hs : main_loop_step ctx msg = .ok r) (hc : r.control ≠ LoopControl.cont)
    (h : main_loop ctx (msg :: rest) = .ok rr) :
    rr.work = r.work ∧ rr.finished_count = 0 := by
  rw [main_loop] at h
  split at h
  · rename_i e heq
    rw [hs] at heq
    cases heq
  · rename_i r' heq
    rw [hs] at heq
    obtain rfl := Except.ok.inj heq
    split at h
    · obtain rfl := Except.ok.inj h
      exact ⟨rfl, rfl⟩
    · obtain rfl := Except.ok.inj h
      exact ⟨rfl, rfl⟩
    · rename_i hctl
      exact absurd hctl hc

/-! ## Finished is emitted at most once -/

theorem main_loop_no_finish_of_done {Img TagT : Type} :
    ∀ (msgs : List (MessageToMain Img TagT)) (tc : ThreadContext Img TagT)
      (rr : RunResult Img TagT),
      tc.total_tiles ≤ tc.loaded_tiles →
      main_loop (some tc) msgs = .ok rr →
      rr.finished_count = 0 := by
  intro msgs
  induction msgs with
  | nil =>
    intro tc rr _ h
    obtain rfl := Except.ok.inj h
    rfl
  | cons msg rest ih =>
    intro tc rr hdone h
    cases hs : main_loop_step (some tc) msg with
    | error e =>
      rw [main_loop, hs] at h
      cases h
    | ok r =>
      by_cases hctl : r.control = LoopControl.cont
      · obtain ⟨rr', hrec, hwork, hcount, _, _⟩ :=
          main_loop_cons_cont _ _ _ _ _ hs hctl h
        by_cases hfwp : ∃ tile image, msg = MessageToMain.FinishWriteParts tile image
        · obtain ⟨tile, image, rfl⟩ := hfwp
          obtain ⟨out, hstep, hctx, _, hem, _, _⟩ := main_loop_step_fwp tc tile image r hs
          obtain ⟨mz, _, hl, ht, _, hemiff, _, _⟩ := step_fwp_inversion tc tile image out hstep
          have hem_false : r.finished_emitted = false := by
            rw [hem]
            by_contra hcon
            have : out.2.2.1 = true := by
              cases hc2 : out.2.2.1
              · exact absurd hc2 hcon
              · rfl
            have := hemiff.mp this
            omega
          have hdone' : out.1.total_tiles ≤ out.1.loaded_tiles := by
            rw [hl, ht]
            omega
          rw [hcount, hem_false]
          simp only [if_neg Bool.false_ne_true, Nat.zero_add]
          rw [hctx] at hrec
          exact ih out.1 rr' hdone' hrec
        · have hmsg : ∀ tile image, msg ≠ MessageToMain.FinishWriteParts tile image := by
            intro tile image hcon
            exact hfwp ⟨tile, image, hcon⟩
          obtain ⟨hem, _, hctx⟩ := main_loop_step_non_fwp _ _ _ hs hmsg
          rcases hctx with hctx | ⟨hcon, _⟩
          · rw [hcount, hem]
            simp only [if_neg Bool.false_ne_true, Nat.zero_add]
            rw [hctx] at hrec
            exact ih tc rr' hdone hrec
          · cases hcon
      · exact (main_loop_cons_break _ _ _ _ _ hs hctl h).2

theorem main_loop_finished_count_le_one {Img TagT : Type} :
    ∀ (msgs : List (MessageToMain Img TagT))
      (ctx : Option (ThreadContext Img TagT)) (rr : RunResult Img TagT),
      main_loop ctx msgs = .ok rr → rr.finished_count ≤ 1 := by
  intro msgs
  induction msgs with
  | nil =>
    intro ctx rr h
    obtain rfl := Except.ok.inj h
    exact Nat.zero_le 1
  | cons msg rest ih =>
    intro ctx rr h
    cases hs : main_loop_step ctx msg with
    | error e =>
      rw [main_loop, hs] at h
      cases h
    | ok r =>
      by_cases hctl : r.control = LoopControl.cont
      · obtain ⟨rr', hrec, hwork, hcount, _, _⟩ :=
          main_loop_cons_cont _ _ _ _ _ hs hctl h
        by_cases hfwp : ∃ tile image, msg = MessageToMain.FinishWriteParts tile image
        · obtain ⟨tile, image, rfl⟩ := hfwp
          cases hc : ctx with
          | none => rw [hc, main_loop_step] at hs; cases hs
          | some tc =>
            rw [hc] at hs
            obtain ⟨out, hstep, hctx, _, hem, _, _⟩ :=
              main_loop_step_fwp tc tile image r hs
            obtain ⟨mz, _, hl, ht, _, hemiff, _, _⟩ :=
              step_fwp_inversion tc tile image out hstep
            cases hemv : out.2.2.1 with
            | false =>
              rw [hcount, hem, hemv]
              simp only [if_neg Bool.false_ne_true, Nat.zero_add]
              exact ih r.ctx rr' hrec
            | true =>
              have heq := hemiff.mp hemv
              have hdone' : out.1.total_tiles ≤ out.1.loaded_tiles := by
                rw [hl, ht]
                omega
              rw [hctx] at hrec
              have hzero := main_loop_no_finish_of_done rest out.1 rr' hdone' hrec
              rw [hcount, hem, hemv, hzero]
              simp
        · have hmsg : ∀ tile image, msg ≠ MessageToMain.FinishWriteParts tile image := by
            intro tile image hcon
            exact hfwp ⟨tile, image, hcon⟩
          obtain ⟨hem, _, _⟩ := main_loop_step_non_fwp _ _ _ hs hmsg
          rw [hcount, hem]
          simp only [if_neg Bool.false_ne_true, Nat.zero_add]
          exact ih r.ctx rr' hrec
      · rw [(main_loop_cons_break _ _ _ _ _ hs hctl h).2]
        exact Nat.zero_le 1

/-! ## Each parent is dispatched at most once per run -/

/-- The run invariant behind at-most-once dispatch: every already-dispatched
parent keeps a `Processed` child whose own write-parts completion has
already been consumed. -/
def dispatched_inv {Img TagT : Type} (tiles : Reg Img)
    (msgs : List (MessageToMain Img TagT)) (ds : List Tile) : Prop :=
  ∀ p ∈ ds, ∃ c, c ∈ p.children ∧ alLookup tiles c = some TileState.Processed ∧
    c ∉ fwp_tiles msgs

theorem main_loop_bp_aux {Img TagT : Type} :
    ∀ (msgs : List (MessageToMain Img TagT))
      (ctx : Option (ThreadContext Img TagT)) (ds : List Tile)
      (rr : RunResult Img TagT),
      main_loop ctx msgs = .ok rr →
      (fwp_tiles msgs).Nodup →
      (∀ tc, ctx = some tc → dispatched_inv tc.tiles msgs ds) →
      (ctx = none → ds = []) →
      (∀ p ∈ ds, bp_count rr.work p = 0) ∧ (∀ p, bp_count rr.work p ≤ 1) := by
  intro msgs
  induction msgs with
  | nil =>
    intro ctx ds rr h _ _ _
    obtain rfl := Except.ok.inj h
    exact ⟨fun p _ => rfl, fun p => Nat.zero_le 1⟩
  | cons msg rest ih =>
    intro ctx ds rr h hnd hinv hnone
    cases hs : main_loop_step ctx msg with
    | error e =>
      rw [main_loop, hs] at h
      cases h
    | ok r =>
      by_cases hctl : r.control = LoopControl.cont
      · obtain ⟨rr', hrec, hwork, _, _, _⟩ :=
          main_loop_cons_cont _ _ _ _ _ hs hctl h
        by_cases hfwp : ∃ tile image, msg = MessageToMain.FinishWriteParts tile image
        · obtain ⟨tile, image, rfl⟩ := hfwp
          cases hc : ctx with
          | none => rw [hc, main_loop_step] at hs; cases hs
          | some tc =>
            rw [hc] at hs
            obtain ⟨out, hstep, hctx, hwk, _, _, _⟩ :=
              main_loop_step_fwp tc tile image r hs
            obtain ⟨mz, _, _, _, _, _, _, hcase⟩ :=
              step_fwp_inversion tc tile image out hstep
            have hfwps : fwp_tiles
                (MessageToMain.FinishWriteParts tile image :: rest) =
                tile :: @fwp_tiles Img TagT rest := rfl
            rw [hfwps] at hnd
            obtain ⟨htile_notin, hndr⟩ := List.nodup_cons.mp hnd
            have hinv0 := hinv tc hc
            rcases hcase with ⟨hz, hready, children, htake, hwork1⟩ |
              ⟨_, hwork1, htiles1⟩
            · -- dispatch of tile.zoom_out
              have hparent_notin_ds : tile.zoom_out ∉ ds := by
                intro hmem
                obtain ⟨c, hcch, hcproc, hcnot⟩ := hinv0 tile.zoom_out hmem
                have hcne : c ≠ tile := by
                  intro hcc
                  exact hcnot (hcc ▸ List.mem_cons_self _ _)
                have hcproc' : alLookup
                    (alUpsert tc.tiles tile (TileState.Loaded image)) c =
                    some TileState.Processed := by
                  rw [alLookup_upsert_ne _ _ _ _ hcne]
                  exact hcproc
                exact tile_ready_no_processed _ _ hready c hcch hcproc'
              have hinv' : dispatched_inv out.1.tiles rest (tile.zoom_out :: ds) := by
                intro p hp
                rcases List.mem_cons.mp hp with rfl | hp
                · refine ⟨tile, mem_children_zoom_out tile, ?_, htile_notin⟩
                  refine take_children_mem_processed _ _ _ _
                    (children_nodup _) htake tile (mem_children_zoom_out tile) ?_
                  rw [alLookup_upsert_self]
                  rfl
                · obtain ⟨c, hcch, hcproc, hcnot⟩ := hinv0 p hp
                  have hcne : c ≠ tile := by
                    intro hcc
                    exact hcnot (hcc ▸ List.mem_cons_self _ _)
                  refine ⟨c, hcch, ?_, fun hmem => hcnot (List.mem_cons_of_mem _ hmem)⟩
                  refine take_children_preserves_processed _ _ _ _ c htake ?_
                  rw [alLookup_upsert_ne _ _ _ _ hcne]
                  exact hcproc
              obtain ⟨ihds, ihall⟩ := ih r.ctx (tile.zoom_out :: ds) rr' hrec hndr
                (by
                  intro tc' hctc'
                  rw [hctx] at hctc'
                  cases Option.some.inj hctc'
                  exact hinv')
                (by intro hcon; rw [hctx] at hcon; cases hcon)
              constructor
              · intro p hp
                rw [hwork, bp_count_append, hwk, hwork1, bp_count_single]
                have hne : ¬ tile.zoom_out = p := by
                  intro hcc
                  exact hparent_notin_ds (hcc ▸ hp)
                rw [if_neg hne]
                rw [ihds p (List.mem_cons_of_mem _ hp)]
              · intro p
                rw [hwork, bp_count_append, hwk, hwork1, bp_count_single]
                by_cases hpq : tile.zoom_out = p
                · rw [if_pos hpq]
                  rw [ihds p (hpq ▸ List.mem_cons_self _ _)]
                · rw [if_neg hpq]
                  simpa using ihall p
            · -- no dispatch
              have hinv' : dispatched_inv out.1.tiles rest ds := by
                intro p hp
                obtain ⟨c, hcch, hcproc, hcnot⟩ := hinv0 p hp
                have hcne : c ≠ tile := by
                  intro hcc
                  exact hcnot (hcc ▸ List.mem_cons_self _ _)
                refine ⟨c, hcch, ?_, fun hmem => hcnot (List.mem_cons_of_mem _ hmem)⟩
                rw [htiles1, alLookup_upsert_ne _ _ _ _ hcne]
                exact hcproc
              obtain ⟨ihds, ihall⟩ := ih r.ctx ds rr' hrec hndr
                (by
                  intro tc' hctc'
                  rw [hctx] at hctc'
                  cases Option.some.inj hctc'
                  exact hinv')
                (by intro hcon; rw [hctx] at hcon; cases hcon)
              constructor
              · intro p hp
                rw [hwork, bp_count_append, hwk, hwork1, ihds p hp]
                rfl
              · intro p
                rw [hwork, bp_count_append, hwk, hwork1]
                have h0 : bp_count ([] : List (MessageToWorker Img)) p = 0 := rfl
                rw [h0, Nat.zero_add]
                exact ihall p
        · have hmsg : ∀ tile image, msg ≠ MessageToMain.FinishWriteParts tile image := by
            intro tile image hcon
            exact hfwp ⟨tile, image, hcon⟩
          obtain ⟨_, hbp0, hctx⟩ := main_loop_step_non_fwp _ _ _ hs hmsg
          have hfwps : fwp_tiles (msg :: rest) = @fwp_tiles Img TagT rest := by
            cases msg with
            | FinishWriteParts tile image => exact absurd rfl (hmsg tile image)
            | Finished => rfl
            | Killed => rfl
            | File f => rfl
            | FinishReadImage t i => rfl
            | FinishBuildParent t i => rfl
          obtain ⟨ihds, ihall⟩ := ih r.ctx ds rr' hrec (by rw [← hfwps]; exact hnd)
            (by
              intro tc' hctc'
              rcases hctx with hctx | ⟨hcnone, tcnew, hctcnew, _⟩
              · rw [hctx] at hctc'
                have := hinv tc' hctc'
                intro p hp
                obtain ⟨c, h1, h2, h3⟩ := this p hp
                exact ⟨c, h1, h2, fun hmem => h3 (by rw [hfwps]; exact hmem)⟩
              · intro p hp
                rw [hnone hcnone] at hp
                simp at hp)
            (by
              intro hcon
              rcases hctx with hctx | ⟨hcnone, tcnew, hctcnew, _⟩
              · rw [hctx] at hcon
                exact hnone hcon
              · exact hnone hcnone)
          constructor
          · intro p hp
            rw [hwork, bp_count_append, hbp0 p, ihds p hp]
          · intro p
            rw [hwork, bp_count_append, hbp0 p]
            simpa using ihall p
      · obtain ⟨hwork, _⟩ := main_loop_cons_break _ _ _ _ _ hs hctl h
        have hrwork : r.work = [] := by
          cases msg with
          | Finished =>
            obtain rfl := Except.ok.inj hs
            rfl
          | Killed =>
            obtain rfl := Except.ok.inj hs
            rfl
          | File f =>
            cases f with
            | infoJson info =>
              cases ctx with
              | some tc => cases hs
              | none =>
                rw [main_loop_step] at hs
                cases hn : @ThreadContext.new Img TagT info with
                | error e => rw [hn] at hs; cases hs
                | ok tcnew =>
                  rw [hn] at hs
                  obtain rfl := Except.ok.inj hs
                  exact absurd rfl hctl
            | bmp surface x y data =>
              obtain rfl := Except.ok.inj hs
              exact absurd rfl hctl
            | other =>
              obtain rfl := Except.ok.inj hs
              exact absurd rfl hctl
          | FinishReadImage t i =>
            obtain rfl := Except.ok.inj hs
            exact absurd rfl hctl
          | FinishWriteParts t i =>
            cases ctx with
            | none => rw [main_loop_step] at hs; cases hs
            | some tc =>
              obtain ⟨out, _, _, _, _, _, hcc⟩ := main_loop_step_fwp tc t i r hs
              exact absurd hcc hctl
          | FinishBuildParent t i =>
            obtain rfl := Except.ok.inj hs
            exact absurd rfl hctl
        rw [hwork, hrwork]
        exact ⟨fun p _ => rfl, fun p => Nat.zero_le 1⟩

/-! ## Claim C2: parent-readiness discipline -/

/-- C2: during a run, a parent is dispatched to `TileBuildParent` iff its
zoom exceeds the surface's min-zoom and every one of its four children is
`Loaded` or absent from the registry (a `Waiting` child blocks dispatch);
a `Processed` child met by the readiness check is an error; at the moment
of dispatch the image of every present child is taken out of the registry,
moving that child to `Processed`; and each parent is dispatched at most
once per run. -/
theorem claim_C2_parent_dispatch {Img TagT : Type} :
    (∀ (tc : ThreadContext Img TagT) (tile : Tile) (image : Img)
        (out : ThreadContext Img TagT × List (MessageToWorker Img) ×
          Bool × Option (MapInfo TagT)) (mz : Int),
      step_finish_write_parts tc tile image = .ok out →
      alLookup tc.min_zoom tile.surface = some mz →
      ((∃ children, MessageToWorker.TileBuildParent tile.zoom_out children ∈ out.2.1) ↔
        (mz < tile.zoom_out.zoom ∧
         ∀ c ∈ tile.zoom_out.children,
           loaded_or_absent
             (alLookup (alUpsert tc.tiles tile (TileState.Loaded image)) c) = true)))
    ∧ (∀ (tc : ThreadContext Img TagT) (tile : Tile) (image : Img) (mz : Int),
        alLookup tc.min_zoom tile.surface = some mz →
        mz < tile.zoom_out.zoom →
        tile_ready_list (alUpsert tc.tiles tile (TileState.Loaded image))
          tile.zoom_out.children = .error () →
        step_finish_write_parts tc tile image = .error ())
    ∧ (∀ (tc : ThreadContext Img TagT) (tile : Tile) (image : Img)
        (out : ThreadContext Img TagT × List (MessageToWorker Img) ×
          Bool × Option (MapInfo TagT)) (children : List (Tile × Img)),
        step_finish_write_parts tc tile image = .ok out →
        MessageToWorker.TileBuildParent tile.zoom_out children ∈ out.2.1 →
        (∀ c ∈ tile.zoom_out.children,
          (alLookup (alUpsert tc.tiles tile (TileState.Loaded image)) c).isSome →
          alLookup out.1.tiles c = some TileState.Processed)
        ∧ (∀ pr ∈ children, pr.1 ∈ tile.zoom_out.children ∧
            alLookup (alUpsert tc.tiles tile (TileState.Loaded image)) pr.1 =
              some (TileState.Loaded pr.2))
        ∧ (∀ c ∈ tile.zoom_out.children,
            (alLookup (alUpsert tc.tiles tile (TileState.Loaded image)) c).isSome →
            ∃ img, (c, img) ∈ children))
    ∧ (∀ (tc0 : ThreadContext Img TagT) (msgs : List (MessageToMain Img TagT))
        (rr : RunResult Img TagT),
        main_loop (some tc0) msgs = .ok rr →
        (fwp_tiles msgs).Nodup →
        ∀ p, bp_count rr.work p ≤ 1) := by
  refine ⟨?_, ?_, ?_, ?_⟩
  · intro tc tile image out mz hstep hmz
    obtain ⟨mz', hmz', _, _, _, _, _, hcase⟩ :=
      step_fwp_inversion tc tile image out hstep
    obtain rfl : mz' = mz := Option.some.inj (hmz'.symm.trans hmz)
    constructor
    · rintro ⟨children, hmem⟩
      rcases hcase with ⟨hz, hready, _, _, hwk⟩ | ⟨_, hwk, _⟩
      · exact ⟨hz, (tile_ready_list_ok_true_iff _ _).mp hready⟩
      · rw [hwk] at hmem
        simp at hmem
    · rintro ⟨hz, hall⟩
      rcases hcase with ⟨_, _, children, _, hwk⟩ | ⟨hcond, hwk, _⟩
      · exact ⟨children, by rw [hwk]; exact List.mem_singleton_self _⟩
      · exfalso
        rcases hcond with hcond | hcond
        · exact hcond hz
        · have := (tile_ready_list_ok_true_iff _ _).mpr hall
          rw [hcond] at this
          cases this
  · intro tc tile image mz hmz hz herr
    cases hstep : step_finish_write_parts tc tile image with
    | error e => cases e; rfl
    | ok out =>
      exfalso
      obtain ⟨mz', hmz', _, _, _, _, _, hcase⟩ :=
        step_fwp_inversion tc tile image out hstep
      obtain rfl : mz' = mz := Option.some.inj (hmz'.symm.trans hmz)
      rcases hcase with ⟨_, hready, _⟩ | ⟨hcond, _, _⟩
      · rw [herr] at hready
        cases hready
      · rcases hcond with hcond | hcond
        · exact hcond hz
        · rw [herr] at hcond
          cases hcond
  · intro tc tile image out children hstep hmem
    obtain ⟨mz', _, _, _, _, _, _, hcase⟩ :=
      step_fwp_inversion tc tile image out hstep
    rcases hcase with ⟨_, _, children', htake, hwk⟩ | ⟨_, hwk, _⟩
    · rw [hwk] at hmem
      have hch : children = children' := by
        have h := List.mem_singleton.mp hmem
        injection h
      subst hch
      obtain ⟨hcont1, hcont2⟩ :=
        take_children_contents _ _ _ _ (children_nodup _) htake
      refine ⟨?_, hcont1, hcont2⟩
      intro c hc hsome
      exact take_children_mem_processed _ _ _ _ (children_nodup _) htake c hc hsome
    · rw [hwk] at hmem
      simp at hmem
  · intro tc0 msgs rr hrun hnd p
    exact (main_loop_bp_aux msgs (some tc0) [] rr hrun hnd
      (fun tc htc => fun q hq => absurd hq (List.not_mem_nil q))
      (fun hcon => by cases hcon)).2 p

/-- C2 witness: a concrete four-children dispatch, plus the at-most-once
count on that run. -/
theorem claim_C2_parent_dispatch_witness :
    (∃ children, MessageToWorker.TileBuildParent
        (Tile.mk "s" 15 0 0) children ∈
        [MessageToWorker.TileBuildParent (Tile.mk "s" 15 0 0)
          [(Tile.mk "s" 16 0 0, (4 : Nat)), (Tile.mk "s" 16 1 0, 1),
           (Tile.mk "s" 16 0 1, 2), (Tile.mk "s" 16 1 1, 3)]])
    ∧ ∃ rr : RunResult Nat Unit,
        main_loop (some (ThreadContext.mk []
          [(Tile.mk "s" 16 0 0, TileState.Waiting),
           (Tile.mk "s" 16 1 0, TileState.Loaded 1),
           (Tile.mk "s" 16 0 1, TileState.Loaded 2),
           (Tile.mk "s" 16 1 1, TileState.Loaded 3)]
          [("s", 14)] 3 10))
          [MessageToMain.FinishWriteParts (Tile.mk "s" 16 0 0) 4] = .ok rr ∧
        bp_count rr.work (Tile.mk "s" 15 0 0) ≤ 1 := by
  constructor
  · have hstep : step_finish_write_parts
        (ThreadContext.mk ([] : List (SurfaceInfo Unit))
          [(Tile.mk "s" 16 0 0, TileState.Waiting),
           (Tile.mk "s" 16 1 0, TileState.Loaded 1),
           (Tile.mk "s" 16 0 1, TileState.Loaded 2),
           (Tile.mk "s" 16 1 1, TileState.Loaded (3 : Nat))]
          [("s", 14)] 3 10)
        (Tile.mk "s" 16 0 0) 4 = .ok
        (ThreadContext.mk []
          [(Tile.mk "s" 16 0 0, TileState.Processed),
           (Tile.mk "s" 16 1 0, TileState.Processed),
           (Tile.mk "s" 16 0 1, TileState.Processed),
           (Tile.mk "s" 16 1 1, TileState.Processed)]
          [("s", 14)] 4 10,
          [MessageToWorker.TileBuildParent (Tile.mk "s" 15 0 0)
            [(Tile.mk "s" 16 0 0, 4), (Tile.mk "s" 16 1 0, 1),
             (Tile.mk "s" 16 0 1, 2), (Tile.mk "s" 16 1 1, 3)]],
          false, none) := rfl
    have := ((@claim_C2_parent_dispatch Nat Unit).1
      _ _ _ _ 14 hstep rfl).mpr ⟨by decide, by decide⟩
    exact this
  · exact ⟨_, rfl,
      (@claim_C2_parent_dispatch Nat Unit).2.2.2
        (ThreadContext.mk []
          [(Tile.mk "s" 16 0 0, TileState.Waiting),
           (Tile.mk "s" 16 1 0, TileState.Loaded 1),
           (Tile.mk "s" 16 0 1, TileState.Loaded 2),
           (Tile.mk "s" 16 1 1, TileState.Loaded 3)]
          [("s", 14)] 3 10)
        [MessageToMain.FinishWriteParts (Tile.mk "s" 16 0 0) 4] _ rfl
        (by decide) _⟩

/-! ## Claim C6: progress counter and Finished emission -/

/-- C6: `loaded_tiles` starts at 0, is incremented by exactly 1 on each
`FinishWriteParts` and changed nowhere else (hence non-decreasing over the
run); when it becomes equal to `total_tiles` the map-index emitter runs and
`Finished` is emitted; this happens at most once per run; and a received
`Finished` stops the main loop with success. -/
theorem claim_C6_progress {Img TagT : Type} :
    (∀ (info : List (SurfaceInfo TagT)) (tc : ThreadContext Img TagT),
      ThreadContext.new info = .ok tc → tc.loaded_tiles = 0)
    ∧ (∀ (tc : ThreadContext Img TagT) (msg : MessageToMain Img TagT)
        (r : StepResult Img TagT) (tc' : ThreadContext Img TagT),
      main_loop_step (some tc) msg = .ok r → r.ctx = some tc' →
      tc'.loaded_tiles = tc.loaded_tiles +
        (match msg with
         | MessageToMain.FinishWriteParts _ _ => 1
         | _ => 0))
    ∧ (∀ (tc : ThreadContext Img TagT) (tile : Tile) (image : Img)
        (out : ThreadContext Img TagT × List (MessageToWorker Img) ×
          Bool × Option (MapInfo TagT)),
      step_finish_write_parts tc tile image = .ok out →
      (out.2.2.1 = true ↔ tc.loaded_tiles + 1 = tc.total_tiles)
      ∧ (out.2.2.1 = true → out.2.2.2.isSome))
    ∧ (∀ (msgs : List (MessageToMain Img TagT))
        (ctx : Option (ThreadContext Img TagT)) (rr : RunResult Img TagT),
      main_loop ctx msgs = .ok rr → rr.finished_count ≤ 1)
    ∧ (∀ (ctx : Option (ThreadContext Img TagT))
        (msgs : List (MessageToMain Img TagT)),
      main_loop ctx (MessageToMain.Finished :: msgs) =
        .ok ⟨ctx, [], 0, [], RunOutcome.finished⟩) := by
  refine ⟨?_, ?_, ?_, ?_, ?_⟩
  · exact fun info tc h => ThreadContext_new_loaded_tiles info tc h
  · intro tc msg r tc' hs hctx
    cases msg with
    | FinishWriteParts tile image =>
      obtain ⟨out, hstep, hctx', _, _, _, _⟩ := main_loop_step_fwp tc tile image r hs
      obtain ⟨_, _, hl, _, _, _, _, _⟩ := step_fwp_inversion tc tile image out hstep
      rw [hctx'] at hctx
      obtain rfl := Option.some.inj hctx
      exact hl
    | Finished =>
      obtain ⟨_, _, hctx'⟩ := main_loop_step_non_fwp _ _ _ hs (by intro _ _ h; cases h)
      rcases hctx' with hctx' | ⟨hcon, _⟩
      · rw [hctx'] at hctx
        obtain rfl := Option.some.inj hctx
        rfl
      · cases hcon
    | Killed =>
      obtain ⟨_, _, hctx'⟩ := main_loop_step_non_fwp _ _ _ hs (by intro _ _ h; cases h)
      rcases hctx' with hctx' | ⟨hcon, _⟩
      · rw [hctx'] at hctx
        obtain rfl := Option.some.inj hctx
        rfl
      · cases hcon
    | File f =>
      obtain ⟨_, _, hctx'⟩ := main_loop_step_non_fwp _ _ _ hs (by intro _ _ h; cases h)
      rcases hctx' with hctx' | ⟨hcon, _⟩
      · rw [hctx'] at hctx
        obtain rfl := Option.some.inj hctx
        rfl
      · cases hcon
    | FinishReadImage t i =>
      obtain ⟨_, _, hctx'⟩ := main_loop_step_non_fwp _ _ _ hs (by intro _ _ h; cases h)
      rcases hctx' with hctx' | ⟨hcon, _⟩
      · rw [hctx'] at hctx
        obtain rfl := Option.some.inj hctx
        rfl
      · cases hcon
    | FinishBuildParent t i =>
      obtain ⟨_, _, hctx'⟩ := main_loop_step_non_fwp _ _ _ hs (by intro _ _ h; cases h)
      rcases hctx' with hctx' | ⟨hcon, _⟩
      · rw [hctx'] at hctx
        obtain rfl := Option.some.inj hctx
        rfl
      · cases hcon
  · intro tc tile image out hstep
    obtain ⟨_, _, _, _, _, hemiff, hemidx, _⟩ :=
      step_fwp_inversion tc tile image out hstep
    exact ⟨hemiff, hemidx⟩
  · exact fun msgs ctx rr h => main_loop_finished_count_le_one msgs ctx rr h
  · intro ctx msgs
    rfl

/-- C6 witness: a concrete run processing one `Finished` message stops with
success and emits nothing further; a killed run has at most one emission. -/
theorem claim_C6_progress_witness :
    @main_loop Nat Unit none [MessageToMain.Finished] =
      .ok ⟨none, [], 0, [], RunOutcome.finished⟩
    ∧ ∃ rr : RunResult Nat Unit,
        main_loop none [MessageToMain.Killed] = .ok rr ∧ rr.finished_count ≤ 1 :=
  ⟨(@claim_C6_progress Nat Unit).2.2.2.2 none [],
   ⟨_, rfl, (@claim_C6_progress Nat Unit).2.2.2.1
     [MessageToMain.Killed] none _ rfl⟩⟩

/-! ## Claim C10: empty-chunk surfaces still appear in the map index -/

theorem foldl_upsert_lookup_notin {TagT : Type} :
    ∀ (info : List (SurfaceInfo TagT)) (m : List (String × SurfaceOut TagT))
      (name : String),
      (∀ s ∈ info, s.name ≠ name) →
      alLookup (info.foldl (fun m s => alUpsert m s.name ⟨[], s.tags⟩) m) name =
        alLookup m name := by
  intro info
  induction info with
  | nil => intro m name _; rfl
  | cons s0 rest ih =>
    intro m name hne
    rw [List.foldl_cons, ih _ name (fun s hs => hne s (List.mem_cons_of_mem _ hs))]
    exact alLookup_upsert_ne _ _ _ _
      (fun hc => hne s0 (List.mem_cons_self _ _) hc.symm)

theorem foldl_upsert_lookup_mem {TagT : Type} :
    ∀ (info : List (SurfaceInfo TagT)) (m : List (String × SurfaceOut TagT))
      (s : SurfaceInfo TagT),
      (info.map SurfaceInfo.name).Nodup → s ∈ info →
      alLookup (info.foldl (fun m s => alUpsert m s.name ⟨[], s.tags⟩) m) s.name =
        some ⟨[], s.tags⟩ := by
  intro info
  induction info with
  | nil => intro m s _ hs; simp at hs
  | cons s0 rest ih =>
    intro m s hnd hs
    obtain ⟨hnotin, hndr⟩ := by
      rw [List.map_cons, List.nodup_cons] at hnd
      exact hnd
    rcases List.mem_cons.mp hs with rfl | hs
    · rw [List.foldl_cons]
      rw [foldl_upsert_lookup_notin rest _ s.name (by
        intro s' hs' hc
        exact hnotin (hc ▸ List.mem_map_of_mem SurfaceInfo.name hs'))]
      exact alLookup_upsert_self _ _ _
    · rw [List.foldl_cons]
      exact ih _ s hndr hs

theorem foldl_upsert_isSome {TagT : Type} :
    ∀ (info : List (SurfaceInfo TagT)) (m : List (String × SurfaceOut TagT))
      (name : String),
      ((alLookup m name).isSome ∨ ∃ s ∈ info, s.name = name) →
      (alLookup (info.foldl (fun m s => alUpsert m s.name ⟨[], s.tags⟩) m) name).isSome := by
  intro info
  induction info with
  | nil =>
    intro m name h
    rcases h with h | ⟨s, hs, _⟩
    · exact h
    · simp at hs
  | cons s0 rest ih =>
    intro m name h
    rw [List.foldl_cons]
    apply ih
    rcases h with h | ⟨s, hs, hname⟩
    · left
      rw [alLookup_upsert_isSome, h]
      rfl
    · rcases List.mem_cons.mp hs with rfl | hs
      · left
        rw [← hname, alLookup_upsert_self]
        rfl
      · exact Or.inr ⟨s, hs, hname⟩

theorem extend_tiles_spec {TagT : Type} :
    ∀ (ts : List Tile) (m : List (String × SurfaceOut TagT)),
      (∀ t ∈ ts, (alLookup m t.surface).isSome) →
      ∃ m', extend_tiles m ts = .ok m' ∧
        (∀ name, (∀ t ∈ ts, t.surface ≠ name) →
          alLookup m' name = alLookup m name) := by
  intro ts
  induction ts with
  | nil =>
    intro m _
    exact ⟨m, rfl, fun name _ => rfl⟩
  | cons t rest ih =>
    intro m hsome
    have ht := hsome t (List.mem_cons_self _ _)
    cases hl : alLookup m t.surface with
    | none => rw [hl] at ht; cases ht
    | some so =>
      obtain ⟨m', hok, hcl⟩ := ih
        (alUpsert m t.surface
          ⟨so.tiles ++ get_tile_parts.map (fun p => p.get_path_components t), so.tags⟩)
        (by
          intro t' ht'
          rw [alLookup_upsert_isSome]
          rw [hsome t' (List.mem_cons_of_mem _ ht')]
          rfl)
      refine ⟨m', ?_, ?_⟩
      · show (match alLookup m t.surface with
          | none => Except.error ()
          | some so =>
            extend_tiles
              (alUpsert m t.surface
                ⟨so.tiles ++ get_tile_parts.map (fun p => p.get_path_components t),
                  so.tags⟩)
              rest) = Except.ok m'
        rw [hl]
        exact hok
      · intro name hne
        rw [hcl name (fun t' ht' => hne t' (List.mem_cons_of_mem _ ht'))]
        exact alLookup_upsert_ne _ _ _ _
          (fun hc => hne t (List.mem_cons_self _ _) hc.symm)

/-- C10: a surface appearing in the manifest with an empty chunk list is
skipped by the planner (no `min_zoom` entry, no registry tiles), yet still
appears as a key of the final map-index document, with an empty tiles list
and its tags carried through unchanged. -/
theorem claim_C10_empty_surface {Img TagT : Type} (info : List (SurfaceInfo TagT))
    (s : SurfaceInfo TagT) (tc : ThreadContext Img TagT)
    (hnd : (info.map SurfaceInfo.name).Nodup)
    (hs : s ∈ info) (hch : s.chunks = [])
    (hnew : ThreadContext.new info = .ok tc) :
    alLookup tc.min_zoom s.name = none
    ∧ (∀ u ∈ alKeys tc.tiles, u.surface ≠ s.name)
    ∧ ∃ m, build_map_index tc.info tc.tiles = .ok m ∧
        m.extension = TILE_EXTENSION ∧
        alLookup m.surfaces s.name = some ⟨[], s.tags⟩ := by
  obtain ⟨tilesF, mzmF, hok, hmemb, hW, hndF, h4, h6, h7⟩ :=
    @plan_surfaces_spec Img TagT info [] [] hnd
      (by intro _ _ u hu; simp [alKeys] at hu) (by intro p hp; simp at hp)
      (by simp [alKeys])
  rw [ThreadContext.new, hok] at hnew
  cases hnew
  have hmemb' : ∀ u, u ∈ alKeys tilesF ↔ u ∈ planned_tiles info := by
    intro u
    rw [hmemb u]
    simp [alKeys]
  have hsurfs : ∀ u ∈ alKeys tilesF, ∃ s' ∈ info, u.surface = s'.name := by
    intro u hu
    rw [hmemb' u, mem_planned_tiles] at hu
    obtain ⟨s', hs', mz, _, c, _, k, _, rfl⟩ := hu
    exact ⟨s', hs', iter_out_surface _ _⟩
  have hnos : ∀ u ∈ alKeys tilesF, u.surface ≠ s.name := by
    intro u hu hcontra
    rw [hmemb' u, mem_planned_tiles] at hu
    obtain ⟨s', hs', mz, hsmz, c, hc, k, _, rfl⟩ := hu
    rw [iter_out_surface] at hcontra
    have : s' = s := List.inj_on_of_nodup_map hnd hs' hs hcontra
    subst this
    rw [hch] at hc
    simp at hc
  refine ⟨?_, hnos, ?_⟩
  · rw [h6 s hs hch]
    rfl
  · obtain ⟨m', hok', hcl⟩ := extend_tiles_spec (alKeys tilesF)
      (info.foldl (fun m s => alUpsert m s.name ⟨[], s.tags⟩) [])
      (by
        intro t ht
        obtain ⟨s', hs', hts⟩ := hsurfs t ht
        exact foldl_upsert_isSome info [] t.surface (Or.inr ⟨s', hs', hts.symm⟩))
    refine ⟨⟨m', TILE_EXTENSION⟩, ?_, rfl, ?_⟩
    · show build_map_index info tilesF = _
      rw [build_map_index, hok']
      rfl
    · show alLookup m' s.name = _
      rw [hcl s.name hnos]
      exact foldl_upsert_lookup_mem info [] s hnd hs

/-- C10 witness: a two-surface manifest where surface `"empty"` has no
chunks still keys the final map index with empty tiles and its tags. -/
theorem claim_C10_empty_surface_witness :
    ∃ (tc : ThreadContext Unit Nat) (m : MapInfo Nat),
      @ThreadContext.new Unit Nat
        [{ name := "empty", tags := [("cat", [7])], chunks := [] },
         { name := "a", tags := [], chunks := [⟨0, 0⟩] }] = .ok tc ∧
      build_map_index tc.info tc.tiles = .ok m ∧
      alLookup m.surfaces "empty" = some ⟨[], [("cat", [7])]⟩ := by
  obtain ⟨tc, htc⟩ : ∃ tc : ThreadContext Unit Nat, ThreadContext.new
      [{ name := "empty", tags := [("cat", [7])], chunks := [] },
       { name := "a", tags := [], chunks := [⟨0, 0⟩] }] = .ok tc := ⟨_, rfl⟩
  have h := claim_C10_empty_surface
    [{ name := "empty", tags := [("cat", [7])], chunks := [] },
     { name := "a", tags := [], chunks := [⟨0, 0⟩] }]
    { name := "empty", tags := [("cat", [7])], chunks := [] } tc
    (by decide) (List.mem_cons_self _ _) rfl htc
  obtain ⟨m, hm, _, hl⟩ := h.2.2
  exact ⟨tc, m, htc, hm, hl⟩
